import Mathlib

/-!
Verification development for the MIMIC-IV FHIR server repository.

The definitions below are a shallow embedding, translated from the Python
source, of the two components the claims are about:

* the resource store / search / patient-everything assembler
  (mimic_fhir_server.py: MimicFhirServer.search_resources,
  _matches_search_params, get_patient_everything,
  _resource_references_patient), and

* the timeline builder (client_example.py: FhirClient._process_timeline,
  _create_event_from_resource, _extract_timestamp_from_resource,
  _extract_code_info).

Python dictionaries are modelled as association lists in insertion order,
absent keys as Option.none, Python string truthiness as nonemptiness, and
Python exceptions (IndexError from indexing an empty list, KeyError /
AttributeError from indexing a dict or calling .get on a list) as the
error case of an Except monad.
-/

namespace MimicFhir

/-- Python truthiness of an optional string: None and the empty string are
falsy, every other string is truthy. -/
def truthy : Option String → Bool
  | none => false
  | some s => s != ""

/-- Python infix or on two optional strings, as in
resource.get(a) or resource.get(b): returns the first operand when it is
truthy, otherwise the second operand. -/
def pyOr (a b : Option String) : Option String :=
  if truthy a then a else b

/-- Lexicographic comparison of character lists by code point, the order
Python uses for its string comparison operators. -/
def charListLe : List Char → List Char → Bool
  | [], _ => true
  | _ :: _, [] => false
  | c1 :: r1, c2 :: r2 =>
    if c1 = c2 then charListLe r1 r2 else decide (c1 < c2)

/-- Python string comparison a less-or-equal b, by code points. -/
def pyStrLe (a b : String) : Bool :=
  charListLe a.data b.data

/-- Does the list start with the given prefix of characters. -/
def listStartsWith : List Char → List Char → Bool
  | _, [] => true
  | [], _ :: _ => false
  | c :: l, p :: ps => if c = p then listStartsWith l ps else false

/-- Split at the first occurrence of the separator: the characters before
it and the characters after it, or none when the separator is absent. -/
def splitFirst (sep : List Char) : List Char → Option (List Char × List Char)
  | [] => none
  | c :: rest =>
    if listStartsWith (c :: rest) sep then
      some ([], (c :: rest).drop sep.length)
    else
      match splitFirst sep rest with
      | some (pre, post) => some (c :: pre, post)
      | none => none

/-- Repeated splitting at every occurrence of the separator, fuelled by
the input length (each split consumes at least one character). -/
def pySplitAux (sep : List Char) : Nat → List Char → List (List Char)
  | 0, s => [s]
  | f + 1, s =>
    match splitFirst sep s with
    | none => [s]
    | some (pre, post) => pre :: pySplitAux sep f post

/-- Python s.split(sep) for a nonempty separator. -/
def pySplitOn (s sep : String) : List String :=
  (pySplitAux sep.data (s.data.length + 1) s.data).map
    (fun cs => (⟨cs⟩ : String))

/-- Python substring test, pat in s, for a nonempty pattern pat. -/
def strContains (s pat : String) : Bool :=
  (pySplitOn s pat).length > 1

/-- Python ref.split("/")[-1] if "/" in ref else ref. -/
def lastSeg (ref : String) : String :=
  let parts := pySplitOn ref "/"
  if parts.length > 1 then parts.getLastD ref else ref

/-- Python s.strip(): whitespace removed from both ends. -/
def pyStrip (s : String) : String :=
  ⟨((s.data.dropWhile Char.isWhitespace).reverse.dropWhile
    Char.isWhitespace).reverse⟩

/-- Python s.replace(old, new) for a nonempty old: split at every
occurrence and rejoin with the replacement. -/
def pyReplace (s old new : String) : String :=
  ⟨List.intercalate new.data (pySplitAux old.data (s.data.length + 1)
    s.data)⟩

/-- Python s.endswith(suffix). -/
def pyEndsWith (s sfx : String) : Bool :=
  sfx.data.isSuffixOf s.data

/-- Python s.lower(), restricted to ASCII case mapping. -/
def pyToLower (s : String) : String :=
  ⟨s.data.map Char.toLower⟩

/-- Python list indexing lst[0]: raises IndexError on an empty list. -/
def pyIndex0 {α : Type} : List α → Except String α
  | [] => .error "list index out of range"
  | x :: _ => .ok x

/-- A FHIR Coding object; every field read by the source is optional, and a
missing key behaves like .get returning None. -/
structure Coding where
  display : Option String := none
  code : Option String := none
  system : Option String := none
deriving Repr, DecidableEq, Inhabited

/-- Python dict truthiness of a Coding object: a coding dict is truthy iff
it carries at least one key. -/
def codingTruthy (c : Coding) : Bool :=
  c.display.isSome || c.code.isSome || c.system.isSome

/-- A FHIR CodeableConcept: an optional coding list and an optional text. -/
structure CodeableConcept where
  coding : Option (List Coding) := none
  text : Option String := none
deriving Repr, DecidableEq, Inhabited

/-- A FHIR Period with optional start and end timestamps. -/
structure Period where
  start : Option String := none
  «end» : Option String := none
deriving Repr, DecidableEq, Inhabited

/-- A FHIR Reference object. -/
structure Ref where
  reference : Option String := none
deriving Repr, DecidableEq, Inhabited

/-- The context field of a resource: either a context.encounter list of
references, or a direct context.reference string (the two shapes
recognized by _process_timeline). -/
structure ResContext where
  encounter : Option (List Ref) := none
  reference : Option String := none
deriving Repr, DecidableEq, Inhabited

/-- The type field of a resource: a single CodeableConcept dict (the
DocumentReference shape) or a list of CodeableConcept dicts (the Encounter
shape); the source dispatches on isinstance checks. -/
inductive TypeField where
  | one : CodeableConcept → TypeField
  | many : List CodeableConcept → TypeField
deriving Repr, DecidableEq

/-- A FHIR Quantity; the numeric value is carried verbatim as a string
token, since the source only copies it. -/
structure Quantity where
  value : Option String := none
  unit : Option String := none
deriving Repr, DecidableEq, Inhabited

/-- A FHIR Identifier. -/
structure Identifier where
  system : Option String := none
  value : Option String := none
deriving Repr, DecidableEq, Inhabited

/-- A FHIR HumanName; given defaults to the empty list as in
name_obj.get with default. -/
structure HumanName where
  family : Option String := none
  given : List String := []
  use : Option String := none
deriving Repr, DecidableEq, Inhabited

/-- A nested sub-extension as read by the Patient branch. -/
structure SubExtension where
  url : Option String := none
  valueString : Option String := none
  valueCoding : Option Coding := none
deriving Repr, DecidableEq, Inhabited

/-- A top-level extension as read by the Patient branch. -/
structure Extension where
  url : Option String := none
  extension : List SubExtension := []
  valueCode : Option String := none
deriving Repr, DecidableEq, Inhabited

/-- A communication entry on a Patient resource. -/
structure Communication where
  language : Option CodeableConcept := none
deriving Repr, DecidableEq, Inhabited

/-- A DocumentReference content attachment. -/
structure Attachment where
  data : Option String := none
deriving Repr, DecidableEq, Inhabited

/-- A DocumentReference content entry. -/
structure ContentItem where
  attachment : Option Attachment := none
deriving Repr, DecidableEq, Inhabited

/-- An Observation note entry. -/
structure NoteItem where
  text : Option String := none
deriving Repr, DecidableEq, Inhabited

/-- A doseAndRate entry of a dosage instruction. -/
structure DoseAndRate where
  doseQuantity : Option Quantity := none
deriving Repr, DecidableEq, Inhabited

/-- The timing field of a dosage instruction. -/
structure Timing where
  code : Option CodeableConcept := none
deriving Repr, DecidableEq, Inhabited

/-- A dosageInstruction entry of a MedicationRequest. -/
structure Dosage where
  text : Option String := none
  doseAndRate : List DoseAndRate := []
  route : Option CodeableConcept := none
  timing : Option Timing := none
deriving Repr, DecidableEq, Inhabited

/-- The specimen collection field read by the generic timestamp search. -/
structure Collection where
  collectedDateTime : Option String := none
  collectedPeriod : Option Period := none
deriving Repr, DecidableEq, Inhabited

/-- A narrative text field with an HTML div. -/
structure Narrative where
  div : Option String := none
deriving Repr, DecidableEq, Inhabited

/-- A FHIR resource, holding every field that the embedded source functions
read. A field whose value is none models a key that is absent from the
Python dict; the all-defaults value models the empty dict. -/
structure Resource where
  resourceType : Option String := none
  id : Option String := none
  period : Option Period := none
  «class» : Option Coding := none
  «type» : Option TypeField := none
  encounter : Option Ref := none
  context : Option ResContext := none
  subject : Option Ref := none
  patient : Option Ref := none
  birthDate : Option String := none
  deceasedDateTime : Option String := none
  gender : Option String := none
  identifier : List Identifier := []
  name : List HumanName := []
  extension : List Extension := []
  maritalStatus : Option CodeableConcept := none
  communication : List Communication := []
  onsetDateTime : Option String := none
  recordedDate : Option String := none
  performedDateTime : Option String := none
  date : Option String := none
  content : List ContentItem := []
  effectiveDateTime : Option String := none
  code : Option CodeableConcept := none
  valueQuantity : Option Quantity := none
  valueString : Option String := none
  note : List NoteItem := []
  authoredOn : Option String := none
  medicationReference : Option Ref := none
  medicationCodeableConcept : Option CodeableConcept := none
  dosageInstruction : List Dosage := []
  status : Option String := none
  text : Option Narrative := none
  effectiveInstant : Option String := none
  issued : Option String := none
  recorded : Option String := none
  abatementDateTime : Option String := none
  occurrenceDateTime : Option String := none
  dateAsserted : Option String := none
  assertedDate : Option String := none
  whenHandedOver : Option String := none
  whenPrepared : Option String := none
  created : Option String := none
  effectivePeriod : Option Period := none
  performedPeriod : Option Period := none
  onsetPeriod : Option Period := none
  abatementPeriod : Option Period := none
  occurrencePeriod : Option Period := none
  collection : Option Collection := none
deriving Repr, DecidableEq, Inhabited

/-- A value stored in an event details mapping: an optional string, or a
list of optional strings (given names, language codes). -/
inductive DVal where
  | s : Option String → DVal
  | ls : List (Option String) → DVal
deriving Repr, DecidableEq

/-- Python dict assignment m[k] = v on an insertion-ordered mapping: an
existing key keeps its position and gets the new value, a new key is
appended. -/
def dictSet {α β : Type} [BEq α] (m : List (α × β)) (k : α) (v : β) :
    List (α × β) :=
  if m.any (fun p => p.1 == k) then
    m.map (fun p => if p.1 == k then (k, v) else p)
  else m ++ [(k, v)]

/-- Python key-membership test k in m. -/
def dictContains {α β : Type} [BEq α] (m : List (α × β)) (k : α) : Bool :=
  m.any (fun p => p.1 == k)

/-- Python m.get(k): the value at the first (unique) matching key. -/
def dictGet? {α β : Type} [BEq α] (m : List (α × β)) (k : α) : Option β :=
  (m.find? (fun p => p.1 == k)).map Prod.snd

/-- Details mapping of an event, in Python dict insertion order. -/
abbrev Details := List (String × DVal)

/-- Embeds client_example.py _extract_timestamp_from_resource: scan the
priority-ordered timestamp fields (direct fields, then period starts, then
collection fields) and return the first truthy value, else None. -/
def extractTimestampFromResource (r : Resource) : Option String :=
  firstTruthy [
    r.effectiveDateTime, r.effectiveInstant,
    r.performedDateTime,
    r.authoredOn, r.issued, r.date,
    r.recordedDate, r.recorded,
    r.onsetDateTime, r.abatementDateTime,
    r.occurrenceDateTime,
    r.dateAsserted, r.assertedDate,
    r.whenHandedOver, r.whenPrepared,
    r.created, r.birthDate, r.deceasedDateTime,
    r.effectivePeriod.bind Period.start,
    r.performedPeriod.bind Period.start,
    r.period.bind Period.start,
    r.onsetPeriod.bind Period.start,
    r.abatementPeriod.bind Period.start,
    r.occurrencePeriod.bind Period.start,
    r.collection.bind Collection.collectedDateTime,
    (r.collection.bind Collection.collectedPeriod).bind Period.start]
where
  /-- Return the first truthy candidate, mirroring the early returns. -/
  firstTruthy : List (Option String) → Option String
    | [] => none
    | v :: rest => if truthy v then v else firstTruthy rest

/-- The three coded keys set from a Coding object (display, code, system)
under the given key names, in source order. -/
def codedKeys (k1 k2 k3 : String) (c : Coding) (d : Details) : Details :=
  dictSet (dictSet (dictSet d k1 (.s c.display)) k2 (.s c.code)) k3
    (.s c.system)

/-- Embeds client_example.py _extract_code_info: pull coding information
from the code field, else from the code text, else from the type field
(accepting the list shape by taking its first element). All list indexing
here is guarded by conditional expressions in the source, so no exception
can arise. -/
def extractCodeInfo (r : Resource) : Details :=
  let code_info : Details :=
    match r.code with
    | some cc =>
      match cc.coding with
      | some cl => codedKeys "code_display" "code" "code_system"
          (cl.headD default) []
      | none =>
        match cc.text with
        | some t => dictSet [] "code_display" (.s (some t))
        | none => []
    | none => []
  if code_info.isEmpty then
    match r.«type» with
    | some tf =>
      let tobj : Option CodeableConcept :=
        match tf with
        | .many [] => none
        | .many (cc :: _) => some cc
        | .one cc => some cc
      match tobj with
      | some cc =>
        match cc.coding with
        | some cl => codedKeys "code_display" "code" "code_system"
            (cl.headD default) []
        | none => []
      | none => []
    | none => []
  else code_info

/-- Python resource.get(key, dict).get("coding", [dict])[0] where key holds
an optional CodeableConcept: an absent dict or absent coding key yields the
empty dict, but an explicitly empty coding list raises IndexError. -/
def codingFromCC : Option CodeableConcept → Except String Coding
  | none => .ok default
  | some cc =>
    match cc.coding with
    | none => .ok default
    | some l => pyIndex0 l

/-- The DocumentReference read resource.get("type", dict).get("coding",
[dict])[0]: a list-shaped type field makes the .get call raise
AttributeError, an empty coding list raises IndexError. -/
def docTypeCoding : Option TypeField → Except String Coding
  | none => .ok default
  | some (.one cc) => codingFromCC (some cc)
  | some (.many _) => .error "AttributeError: list object has no attribute get"

/-- The Encounter read resource.get("type", [dict])[0].get("coding",
[dict])[0].get("display", empty) from pass 1 of _process_timeline; a
dict-shaped type field raises KeyError on integer indexing, empty lists
raise IndexError. -/
def encTypeCoding : Option TypeField → Except String Coding
  | none => .ok default
  | some (.one _) => .error "KeyError: 0"
  | some (.many l) =>
    match pyIndex0 l with
    | .error e => .error e
    | .ok cc => codingFromCC (some cc)

/-- The marital status code map of the Patient branch; an unknown code maps
to itself, as with dict.get(code, code). -/
def maritalMap (c : String) : String :=
  if c == "S" then "Single"
  else if c == "M" then "Married"
  else if c == "D" then "Divorced"
  else if c == "W" then "Widowed"
  else if c == "L" then "Legally Separated"
  else if c == "A" then "Annulled"
  else if c == "P" then "Polygamous"
  else if c == "T" then "Domestic Partner"
  else if c == "U" then "Unmarried"
  else if c == "UNK" then "Unknown"
  else c

/-- One step of the tag-stripping regex: given the characters after an
opening angle bracket, consume at least one character other than a closing
bracket followed by a closing bracket, returning the remainder, or fail. -/
def dropTagGo : List Char → Option (List Char)
  | [] => none
  | c :: rest => if c == '>' then some rest else dropTagGo rest

/-- Attempt to match the regex tail after an opening angle bracket: the
first character must not close the tag immediately. -/
def dropTag : List Char → Option (List Char)
  | [] => none
  | c :: rest => if c == '>' then none else dropTagGo rest

/-- Left-to-right scan removing every HTML tag, as re.sub with the pattern
matching an angle-bracketed nonempty run; fuelled by the input length. -/
def stripTagsAux : Nat → List Char → List Char
  | 0, cs => cs
  | _ + 1, [] => []
  | f + 1, c :: rest =>
    if c == '<' then
      match dropTag rest with
      | some rest2 => stripTagsAux f rest2
      | none => c :: stripTagsAux f rest
    else c :: stripTagsAux f rest

/-- Python re.sub removing HTML tags from a narrative div. -/
def stripTags (s : String) : String :=
  ⟨stripTagsAux (s.data.length + 1) s.data⟩

/-- A normalized timeline event as built by _create_event_from_resource;
the encounter_referenced field is filled in by pass 2 of the builder (the
extractor leaves it at the empty placeholder, modelling the absent key). -/
structure Event where
  date : Option String := none
  undated : Bool := false
  «type» : Option String := none
  category : Option String := none
  resource_id : Option String := none
  encounter_referenced : String := ""
  details : Details := []
deriving Repr, DecidableEq, Inhabited

/-- The Patient-branch demographics details of _create_event_from_resource,
in source assignment order. -/
def patientDetails (r : Resource) : Details :=
  let d := dictSet [] "birth_date" (.s r.birthDate)
  let d := dictSet d "deceased_date" (.s r.deceasedDateTime)
  let d := dictSet d "gender" (.s r.gender)
  let d := r.identifier.foldl (fun d idf =>
    if idf.system == some "http://mimic.mit.edu/fhir/mimic/identifier/patient"
    then dictSet d "subject_id" (.s idf.value) else d) d
  let d := match r.name with
    | [] => d
    | n :: _ =>
      let d := dictSet d "family_name" (.s n.family)
      let d := dictSet d "given_names" (.ls (n.given.map some))
      dictSet d "name_use" (.s n.use)
  let d := r.extension.foldl (fun d ext =>
    if strContains (ext.url.getD "") "us-core-race" then
      ext.extension.foldl (fun d sub =>
        if sub.url == some "text" then dictSet d "race" (.s sub.valueString)
        else if sub.url == some "ombCategory" then
          dictSet d "race_code" (.s (sub.valueCoding.getD default).code)
        else d) d
    else d) d
  let d := r.extension.foldl (fun d ext =>
    if strContains (ext.url.getD "") "us-core-ethnicity" then
      ext.extension.foldl (fun d sub =>
        if sub.url == some "text" then
          dictSet d "ethnicity" (.s sub.valueString)
        else if sub.url == some "ombCategory" then
          dictSet d "ethnicity_code" (.s (sub.valueCoding.getD default).code)
        else d) d
    else d) d
  let d := r.extension.foldl (fun d ext =>
    if strContains (ext.url.getD "") "us-core-birthsex" then
      dictSet d "birth_sex" (.s ext.valueCode)
    else d) d
  let d := match (r.maritalStatus.bind CodeableConcept.coding).getD [] with
    | [] => d
    | c :: _ =>
      let mapped : Option String := c.code.map maritalMap
      dictSet (dictSet d "marital_status" (.s mapped)) "marital_status_code"
        (.s c.code)
  let languages := r.communication.foldl (fun acc comm =>
    match (comm.language.bind CodeableConcept.coding).getD [] with
    | [] => acc
    | c :: _ => acc ++ [c.code]) ([] : List (Option String))
  if languages.isEmpty then d else dictSet d "languages" (.ls languages)

/-- The DocumentReference note details (note_text and note_preview) from
the first content attachment. -/
def docNoteDetails (r : Resource) (d : Details) : Details :=
  match r.content with
  | [] => d
  | c0 :: _ =>
    let note_text := ((c0.attachment.getD default).data).getD ""
    if note_text != "" then
      let d := dictSet d "note_text" (.s (some note_text))
      let preview0 := pyStrip (pyReplace (note_text.take 100) "\n" " ")
      let preview :=
        if note_text.length > 100 then preview0 ++ "..." else preview0
      dictSet d "note_preview" (.s (some preview))
    else d

/-- The MedicationRequest dosage-instruction details; the route and timing
coding reads can raise IndexError on explicitly empty coding lists. -/
def dosageDetails (r : Resource) (d : Details) : Except String Details :=
  match r.dosageInstruction with
  | [] => .ok d
  | dos :: _ =>
    let d := dictSet d "dosage_text" (.s dos.text)
    let d := match dos.doseAndRate with
      | [] => d
      | dar :: _ =>
        let dq := dar.doseQuantity.getD default
        dictSet (dictSet d "dose_value" (.s dq.value)) "dose_unit" (.s dq.unit)
    match codingFromCC dos.route with
    | .error e => .error e
    | .ok route =>
      let d := if codingTruthy route then
          dictSet d "route_code" (.s route.code) else d
      match codingFromCC (dos.timing.bind Timing.code) with
      | .error e => .error e
      | .ok timing_code =>
        .ok (if codingTruthy timing_code then
          dictSet d "timing" (.s timing_code.code) else d)

/-- The per-resource-type dispatch of _create_event_from_resource: returns
none for the Encounter early return, otherwise the (date, category,
details) triple the branch computed; errors model the Python exceptions
raised while extracting coded details. -/
def createEventCore (r : Resource) :
    Except String (Option (Option String × Option String × Details)) :=
  if r.resourceType == some "Patient" then
    .ok (some (r.birthDate, some "demographics", patientDetails r))
  else if r.resourceType == some "Encounter" then
    .ok none
  else if r.resourceType == some "Condition" then
    match codingFromCC r.code with
    | .error e => .error e
    | .ok coding =>
      .ok (some (pyOr r.onsetDateTime r.recordedDate, some "condition",
        codedKeys "code_display" "code" "code_system" coding []))
  else if r.resourceType == some "Procedure" then
    match codingFromCC r.code with
    | .error e => .error e
    | .ok coding =>
      .ok (some (r.performedDateTime, some "procedure",
        codedKeys "code_display" "code" "code_system" coding []))
  else if r.resourceType == some "DocumentReference" then
    match docTypeCoding r.«type» with
    | .error e => .error e
    | .ok type_coding =>
      let d := codedKeys "document_type" "document_type_code"
        "document_type_system" type_coding []
      .ok (some (r.date, some "document", docNoteDetails r d))
  else if r.resourceType == some "Observation" then
    match codingFromCC r.code with
    | .error e => .error e
    | .ok coding =>
      let d := codedKeys "code_display" "code" "code_system" coding []
      let d := match r.valueQuantity with
        | some q => dictSet (dictSet d "value" (.s q.value)) "unit" (.s q.unit)
        | none => d
      let d := if truthy r.valueString then
          dictSet d "value_string" (.s r.valueString) else d
      let d := match r.note with
        | [] => d
        | n0 :: _ => dictSet d "note" (.s n0.text)
      .ok (some (r.effectiveDateTime, some "observation", d))
  else if r.resourceType == some "MedicationRequest" then
    let d : Details := []
    let d := match r.medicationReference with
      | some mr => dictSet d "medication_reference" (.s mr.reference)
      | none => d
    match (match r.medicationCodeableConcept with
           | some cc =>
             match codingFromCC (some cc) with
             | .error e => .error e
             | .ok coding => .ok (codedKeys "medication_display"
                 "medication_code" "medication_system" coding d)
           | none => .ok d : Except String Details) with
    | .error e => .error e
    | .ok d =>
      match dosageDetails r d with
      | .error e => .error e
      | .ok d => .ok (some (r.authoredOn, some "medication", d))
  else
    let date := extractTimestampFromResource r
    let category : Option String := some (match r.resourceType with
      | some t => if t == "" then "unknown" else pyToLower t
      | none => "unknown")
    let code_info := extractCodeInfo r
    let d := code_info.foldl (fun d p => dictSet d p.1 p.2) ([] : Details)
    let d := match r.status with
      | some st => dictSet d "status" (.s (some st))
      | none => d
    let d := match r.text with
      | some nar =>
        match nar.div with
        | some divt =>
          let text_preview := (pyStrip (stripTags divt)).take 200
          if text_preview != "" then
            dictSet d "text_preview" (.s (some text_preview))
          else d
        | none => d
      | none => d
    .ok (some (date, category, d))

/-- Embeds client_example.py _create_event_from_resource: run the type
dispatch, then create an event only when a date was found or the resource
carries an encounter or context key (and the category is truthy). -/
def createEventFromResource (r : Resource) : Except String (Option Event) :=
  match createEventCore r with
  | .error e => .error e
  | .ok none => .ok none
  | .ok (some (date, category, details)) =>
    let has_encounter_ref := r.encounter.isSome || r.context.isSome
    if truthy date || (has_encounter_ref && truthy category) then
      .ok (some {
        date := date
        undated := !(truthy date)
        «type» := r.resourceType
        category := category
        resource_id := r.id
        encounter_referenced := ""
        details := details })
    else .ok none

/-- A bundle entry; the resource defaults to the empty dict as with
entry.get("resource", dict). -/
structure Entry where
  resource : Option Resource := none
deriving Repr, DecidableEq, Inhabited

/-- The per-encounter accumulator built in pass 1 of _process_timeline:
identifier, window, labels and the growing event list. -/
structure EncounterShell where
  id : Option String := none
  start : Option String := none
  «end» : Option String := none
  «class» : String := "Unknown"
  «type» : String := ""
  events : List Event := []
deriving Repr, DecidableEq, Inhabited

/-- The encounters dict of _process_timeline: an insertion-ordered mapping
from encounter identifier (possibly absent) to its shell. -/
abbrev Shells := List (Option String × EncounterShell)

/-- Pass 1 of _process_timeline: discover Encounter resources, building
the encounters dict and the discovery-order identifier list (duplicated
identifiers overwrite the shell but are appended to the order list again,
as in Python). -/
def pass1 (entries : List Entry) (encs : Shells)
    (order : List (Option String)) :
    Except String (Shells × List (Option String)) :=
  match entries with
  | [] => .ok (encs, order)
  | entry :: rest =>
    let r := entry.resource.getD default
    if r.resourceType == some "Encounter" then
      match encTypeCoding r.«type» with
      | .error e => .error e
      | .ok tc =>
        let shell : EncounterShell := {
          id := r.id
          start := r.period.bind Period.start
          «end» := r.period.bind Period.«end»
          «class» := ((r.«class»).bind Coding.display).getD "Unknown"
          «type» := tc.display.getD ""
          events := [] }
        pass1 rest (dictSet encs r.id shell) (order ++ [r.id])
    else pass1 rest encs order

/-- The sort key encounters[eid].start or empty used at line 150: a missing
or empty start sorts as the empty string. -/
def startKey (encs : Shells) (eid : Option String) : String :=
  match dictGet? encs eid with
  | some sh => if truthy sh.start then sh.start.getD "" else ""
  | none => ""

/-- The encounter-reference resolution of pass 2: a direct encounter
reference, else the first context.encounter reference, else a
context.reference naming an Encounter; returns the trailing path segment. -/
def resolveEncounterRef (r : Resource) : Option String :=
  match r.encounter with
  | some enc => some (lastSeg (enc.reference.getD ""))
  | none =>
    match r.context with
    | some ctx =>
      match ctx.encounter with
      | some [] => none
      | some (ref0 :: _) => some (lastSeg (ref0.reference.getD ""))
      | none =>
        match ctx.reference with
        | some cref =>
          if strContains cref "Encounter/" then some (lastSeg cref) else none
        | none => none
    | none => none

/-- Append an event to the events list of the shell stored under the given
key (Python dict indexing mutates the single entry with that key). -/
def updateFirst (encs : Shells) (k : Option String) (ev : Event) : Shells :=
  match encs with
  | [] => []
  | p :: rest =>
    if p.1 == k then (p.1, { p.2 with events := p.2.events ++ [ev] }) :: rest
    else p :: updateFirst rest k ev

/-- Pass 2 of _process_timeline: for every entry resolve the encounter
reference, build the event, then route it to the demographics slot, the
referenced encounter shell, or the pending non-encounter list. -/
def pass2 (entries : List Entry) (encs : Shells) (demo : Option Event)
    (pending : List Event) :
    Except String (Shells × Option Event × List Event) :=
  match entries with
  | [] => .ok (encs, demo, pending)
  | entry :: rest =>
    let r := entry.resource.getD default
    let encounter_ref := resolveEncounterRef r
    match createEventFromResource r with
    | .error e => .error e
    | .ok none => pass2 rest encs demo pending
    | .ok (some ev0) =>
      let ev := { ev0 with encounter_referenced :=
        (if truthy encounter_ref then encounter_ref.getD "" else "none") }
      if r.resourceType == some "Patient" then
        pass2 rest encs (some ev) pending
      else if truthy encounter_ref &&
          dictContains encs (some (encounter_ref.getD "")) then
        pass2 rest (updateFirst encs (some (encounter_ref.getD "")) ev)
          demo pending
      else
        pass2 rest encs demo (pending ++ [ev])

/-- The pass-3 membership test for one encounter window: start and end
both truthy and start below the date below the end, or only start truthy
and the date at or after the start. -/
def encWindowTest (sh : EncounterShell) (event_date : String) : Bool :=
  (truthy sh.start && truthy sh.«end» &&
    pyStrLe (sh.start.getD "") event_date &&
    pyStrLe event_date ((sh.«end»).getD ""))
  || (truthy sh.start && !(truthy sh.«end») &&
    pyStrLe (sh.start.getD "") event_date)

/-- The inner loop of pass 3: walk the encounters dict in insertion order
and append the event to the first shell whose window contains its date;
none when no window matches. -/
def assignByWindow (encs : Shells) (ev : Event) : Option Shells :=
  match encs with
  | [] => none
  | (k, sh) :: rest =>
    if encWindowTest sh (ev.date.getD "") then
      some ((k, { sh with events := sh.events ++ [ev] }) :: rest)
    else
      match assignByWindow rest ev with
      | some rest2 => some ((k, sh) :: rest2)
      | none => none

/-- Pass 3 of _process_timeline: each pending event with a truthy date is
offered to the encounter windows; unplaced or undated events accumulate in
the remaining non-encounter list, preserving order. -/
def pass3 (pending : List Event) (encs : Shells) (remaining : List Event) :
    Shells × List Event :=
  match pending with
  | [] => (encs, remaining)
  | ev :: rest =>
    if truthy ev.date then
      match assignByWindow encs ev with
      | some encs2 => pass3 rest encs2 remaining
      | none => pass3 rest encs (remaining ++ [ev])
    else pass3 rest encs (remaining ++ [ev])

/-- The pass-4 sort key comparison on events: the tuple
(date is None, date or empty) compared lexicographically, as in the
Python key function. -/
def evSortLe (a b : Event) : Bool :=
  if a.date.isNone == b.date.isNone then
    pyStrLe (a.date.getD "") (b.date.getD "")
  else !a.date.isNone

/-- The stable sort of an event list by evSortLe; Python list.sort is a
stable sort by the same key, so any stable sort gives the same list. -/
def sortEvents (l : List Event) : List Event :=
  l.insertionSort (fun a b => evSortLe a b = true)

/-- The dated sublist: events whose undated flag is falsy. -/
def datedOf (l : List Event) : List Event :=
  l.filter (fun e => !e.undated)

/-- The undated sublist: events whose undated flag is truthy. -/
def undatedOf (l : List Event) : List Event :=
  l.filter (fun e => e.undated)

/-- One output encounter record of the timeline, with the exact field
names of the compatibility contract. -/
structure EncounterSummary where
  encounter_id : Option String := none
  start : Option String := none
  «end» : Option String := none
  «class» : String := "Unknown"
  «type» : String := ""
  dated_event_count : Nat := 0
  undated_event_count : Nat := 0
  events : List Event := []
  undated_events : List Event := []
deriving Repr, DecidableEq, Inhabited

/-- The summary statistics block of the timeline. -/
structure TimelineSummary where
  total_encounters : Nat := 0
  total_events : Nat := 0
  total_dated_events : Nat := 0
  total_undated_events : Nat := 0
  events_with_encounter : Nat := 0
  events_without_encounter : Nat := 0
deriving Repr, DecidableEq, Inhabited

/-- The timeline output structure of _process_timeline. -/
structure Timeline where
  patient_id : String := ""
  demographics : Option Event := none
  encounters : List EncounterSummary := []
  non_encounter_events : List Event := []
  non_encounter_undated_events : List Event := []
  summary : TimelineSummary := {}
deriving Repr, DecidableEq, Inhabited

/-- Pass 4 applied to one shell: sort its events, split them into the
dated and undated sublists, and emit the output record. -/
def summarizeShell (sh : EncounterShell) : EncounterSummary :=
  let sorted := sortEvents sh.events
  let dated := datedOf sorted
  let undated := undatedOf sorted
  { encounter_id := sh.id
    start := sh.start
    «end» := sh.«end»
    «class» := sh.«class»
    «type» := sh.«type»
    dated_event_count := dated.length
    undated_event_count := undated.length
    events := dated
    undated_events := undated }

/-- The final assembly of the timeline: encounters are emitted following
the start-sorted order list, the non-encounter events are sorted and
split, and the summary statistics are computed over the encounters dict
values plus the non-encounter lists (one term per distinct dict key). -/
def finalizeTimeline (patient_id : String)
    (sorted_order : List (Option String)) (demographics : Option Event)
    (encs3 : Shells) (non_enc : List Event) : Timeline :=
  let sortedNon := sortEvents non_enc
  let dated_non := datedOf sortedNon
  let undated_non := undatedOf sortedNon
  let encounters_out := sorted_order.map (fun eid =>
    summarizeShell ((dictGet? encs3 eid).getD default))
  let total_dated :=
    (encs3.map (fun p => (datedOf (sortEvents p.2.events)).length)).sum
      + dated_non.length
  let total_undated :=
    (encs3.map (fun p => (undatedOf (sortEvents p.2.events)).length)).sum
      + undated_non.length
  { patient_id := patient_id
    demographics := demographics
    encounters := encounters_out
    non_encounter_events := dated_non
    non_encounter_undated_events := undated_non
    summary := {
      total_encounters := encounters_out.length
      total_events := total_dated + total_undated +
        (if demographics.isSome then 1 else 0)
      total_dated_events := total_dated
      total_undated_events := total_undated
      events_with_encounter := (encs3.map (fun p =>
        (datedOf (sortEvents p.2.events)).length +
        (undatedOf (sortEvents p.2.events)).length)).sum
      events_without_encounter := dated_non.length + undated_non.length } }

/-- Embeds client_example.py _process_timeline: the four passes over the
bundle followed by final assembly; the result is an error exactly when one
of the Python list-indexing exceptions fires. -/
def processTimeline (bundle : List Entry) (patient_id : String) :
    Except String Timeline :=
  match pass1 bundle [] [] with
  | .error e => .error e
  | .ok (encs1, encounter_order) =>
    match pass2 bundle encs1 none [] with
    | .error e => .error e
    | .ok (encs2, demographics, pending) =>
      .ok (finalizeTimeline patient_id
        (encounter_order.insertionSort (fun a b =>
          pyStrLe (startKey encs1 a) (startKey encs1 b) = true))
        demographics (pass3 pending encs2 []).1 (pass3 pending encs2 []).2)

/-- The in-memory resource store: resource type to an insertion-ordered
mapping from identifier to resource. -/
abbrev Store := List (String × List (String × Resource))

/-- Embeds mimic_fhir_server.py get_resource: point lookup by type and
identifier. -/
def getResource (store : Store) (resource_type resource_id : String) :
    Option Resource :=
  dictGet? ((dictGet? store resource_type).getD []) resource_id

/-- Embeds mimic_fhir_server.py _matches_search_params: the _id parameter
requires exact identifier equality; the patient and subject parameters
match when the subject reference ends with the value or equals the
Patient-prefixed form; other parameters are ignored. -/
def matchesSearchParams (r : Resource) (params : List (String × String)) :
    Bool :=
  params.all (fun pv =>
    if pv.1 == "_id" then r.id == some pv.2
    else if pv.1 == "patient" || pv.1 == "subject" then
      let subject_ref := (r.subject.bind Ref.reference).getD ""
      pyEndsWith subject_ref pv.2 || subject_ref == "Patient/" ++ pv.2
    else true)

/-- Embeds mimic_fhir_server.py search_resources: linear scan over the
stored resources of the type, keeping those matching every parameter. -/
def searchResources (store : Store) (resource_type : String)
    (params : List (String × String)) : List Resource :=
  ((((dictGet? store resource_type).getD []).filter (fun p =>
    matchesSearchParams p.2 params)).map Prod.snd)

/-- Embeds mimic_fhir_server.py _resource_references_patient: the subject
or patient reference equals the Patient-prefixed identifier exactly. -/
def resourceReferencesPatient (r : Resource) (patient_id : String) : Bool :=
  ((r.subject.bind Ref.reference).getD "" == "Patient/" ++ patient_id)
  || ((r.patient.bind Ref.reference).getD "" == "Patient/" ++ patient_id)

/-- Embeds mimic_fhir_server.py get_patient_everything: none when the
patient is not stored, otherwise the patient followed by every resource
stored under a type other than Patient whose subject or patient reference
matches, in store iteration order. -/
def getPatientEverything (store : Store) (patient_id : String) :
    Option (List Resource) :=
  match getResource store "Patient" patient_id with
  | none => none
  | some patient =>
    some (patient :: store.flatMap (fun tp =>
      if tp.1 == "Patient" then []
      else (tp.2.filter (fun p =>
        resourceReferencesPatient p.2 patient_id)).map Prod.snd))

/-! ## Derived views used to state the claims -/

/-- The discovery-order list of encounter identifiers: the id of every
Encounter-type resource, in bundle order (duplicates kept). -/
def encounterIds (bundle : List Entry) : List (Option String) :=
  bundle.filterMap (fun entry =>
    let r := entry.resource.getD default
    if r.resourceType == some "Encounter" then some r.id else none)

/-- First-occurrence deduplication, the key order of a Python dict built
by repeated assignment. -/
def firstOccurrences (l : List (Option String)) : List (Option String) :=
  l.foldl (fun acc x => if acc.contains x then acc else acc ++ [x]) []

/-- All events currently held by the encounter shells, in dict order. -/
def bigEvents (encs : Shells) : List Event :=
  encs.flatMap (fun p => p.2.events)

/-- The event list of the shell stored under a key. -/
def shellEvents (encs : Shells) (k : Option String) : List Event :=
  ((dictGet? encs k).map EncounterShell.events).getD []

/-- A shell with its event list cleared; equality of these states that
everything except the events is untouched. -/
def shellMeta (sh : EncounterShell) : EncounterShell :=
  { sh with events := [] }

/-- The event produced for a resource exactly as pass 2 finalizes it: the
extracted event with the encounter_referenced marker filled in. -/
def pass2Event (r : Resource) : Except String (Option Event) :=
  match createEventFromResource r with
  | .error e => .error e
  | .ok none => .ok none
  | .ok (some ev0) =>
    .ok (some { ev0 with encounter_referenced :=
      (if truthy (resolveEncounterRef r) then (resolveEncounterRef r).getD ""
       else "none") })

/-- The stream of finalized non-Patient events of the bundle restricted to
resources satisfying the given predicate, in bundle order; an error
whenever the extractor raises on some entry. -/
def eventsFromBundle (keep : Resource → Bool) (bundle : List Entry) :
    Except String (List Event) :=
  match bundle with
  | [] => .ok []
  | entry :: rest =>
    let r := entry.resource.getD default
    match pass2Event r with
    | .error e => .error e
    | .ok none => eventsFromBundle keep rest
    | .ok (some ev) =>
      match eventsFromBundle keep rest with
      | .error e => .error e
      | .ok tail =>
        .ok (if r.resourceType == some "Patient" then tail
          else if keep r then ev :: tail else tail)

/-- Selects every resource. -/
def keepAll : Resource → Bool := fun _ => true

/-- Selects the resources whose resolved encounter reference is truthy and
names the given encounter key. -/
def directTo (k : Option String) (r : Resource) : Bool :=
  truthy (resolveEncounterRef r) &&
    (some ((resolveEncounterRef r).getD "") == k)

/-- Selects the resources that pass 2 routes to the pending list: no
truthy resolved reference to a known encounter key. -/
def toPending (ks : List (Option String)) (r : Resource) : Bool :=
  !(truthy (resolveEncounterRef r) &&
    ks.contains (some ((resolveEncounterRef r).getD "")))

/-! ## Dictionary lemmas -/

theorem dictContains_iff {α β : Type} [BEq α] [LawfulBEq α]
    (m : List (α × β)) (k : α) :
    dictContains m k = true ↔ k ∈ m.map Prod.fst := by
  unfold dictContains
  rw [List.any_eq_true]
  constructor
  · rintro ⟨p, hp, hk⟩
    exact List.mem_map.mpr ⟨p, hp, eq_of_beq hk⟩
  · intro hk
    obtain ⟨p, hp, he⟩ := List.mem_map.mp hk
    exact ⟨p, hp, beq_iff_eq.mpr he⟩

theorem dictSet_keys {α β : Type} [BEq α] [LawfulBEq α]
    (m : List (α × β)) (k : α) (v : β) :
    (dictSet m k v).map Prod.fst =
      if dictContains m k then m.map Prod.fst else m.map Prod.fst ++ [k] := by
  unfold dictSet dictContains
  split
  · rw [List.map_map]
    apply List.map_congr_left
    intro p _
    simp only [Function.comp]
    by_cases hp : p.1 == k
    · simp [hp, (eq_of_beq hp).symm]
    · simp [hp]
  · simp

theorem updateFirst_keys (encs : Shells) (k : Option String) (ev : Event) :
    (updateFirst encs k ev).map Prod.fst = encs.map Prod.fst := by
  induction encs with
  | nil => rfl
  | cons p rest ih =>
    by_cases h : p.1 == k
    · simp [updateFirst, h]
    · simp [updateFirst, h, ih]

theorem updateFirst_meta (encs : Shells) (k : Option String) (ev : Event)
    (k' : Option String) :
    (dictGet? (updateFirst encs k ev) k').map shellMeta =
      (dictGet? encs k').map shellMeta := by
  induction encs with
  | nil => rfl
  | cons p rest ih =>
    by_cases h : p.1 == k
    · by_cases h' : p.1 == k'
      · simp [updateFirst, h, dictGet?, List.find?_cons, h', shellMeta]
      · simp [updateFirst, h, dictGet?, List.find?_cons, h']
    · by_cases h' : p.1 == k'
      · simp [updateFirst, h, dictGet?, List.find?_cons, h']
      · simpa [updateFirst, h, dictGet?, List.find?_cons, h'] using ih

/-! ## Concrete fixtures used by witnesses and counterexamples -/

/-- An Encounter resource with identifier E1 and a five-day window. -/
def encE1 : Resource :=
  { resourceType := some "Encounter", id := some "E1",
    period := some { start := some "2021-01-01", «end» := some "2021-01-05" } }

/-- An Observation dated inside the E1 window, directly referencing E1. -/
def obsDirect : Resource :=
  { resourceType := some "Observation", id := some "O1",
    effectiveDateTime := some "2021-01-02",
    encounter := some { reference := some "Encounter/E1" } }

/-- An Observation dated inside the E1 window whose encounter reference
names the unknown encounter E9. -/
def obsUnknownRef : Resource :=
  { resourceType := some "Observation", id := some "O2",
    effectiveDateTime := some "2021-01-02",
    encounter := some { reference := some "Encounter/E9" } }

/-- An Observation dated inside the E1 window with no encounter field. -/
def obsPlain : Resource :=
  { resourceType := some "Observation", id := some "O3",
    effectiveDateTime := some "2021-01-02" }

/-- A Condition carrying a date whose code has an explicitly empty coding
list, the shape on which the Python source raises IndexError. -/
def condEmptyCoding : Resource :=
  { resourceType := some "Condition", id := some "C1",
    onsetDateTime := some "2020-05-05", code := some { coding := some [] } }

/-- A Procedure carrying a date whose code has an explicitly empty coding
list. -/
def procEmptyCoding : Resource :=
  { resourceType := some "Procedure", id := some "PR1",
    performedDateTime := some "2020-01-01",
    code := some { coding := some [] } }

/-- The bundle with a duplicated Encounter id followed by an attributed
observation. -/
def dupEncBundle : List Entry :=
  [⟨some encE1⟩, ⟨some encE1⟩, ⟨some obsDirect⟩]

/-! ## C9 -/

/-- C9: the timeline builder is deterministic — two builds from equal
bundles and equal patient identifiers return equal timelines (the embedded
builder is a pure function of its two inputs). -/
theorem processTimeline_deterministic (bundle₁ bundle₂ : List Entry)
    (pid₁ pid₂ : String) (hb : bundle₁ = bundle₂) (hp : pid₁ = pid₂) :
    processTimeline bundle₁ pid₁ = processTimeline bundle₂ pid₂ := by
  rw [hb, hp]

/-- Witness for C9 at a concrete bundle. -/
theorem processTimeline_deterministic_witness :
    [Entry.mk (some encE1), ⟨some obsPlain⟩] = [⟨some encE1⟩, ⟨some obsPlain⟩]
    ∧ processTimeline [⟨some encE1⟩, ⟨some obsPlain⟩] "p"
      = processTimeline [⟨some encE1⟩, ⟨some obsPlain⟩] "p" :=
  ⟨rfl, processTimeline_deterministic _ _ _ _ rfl rfl⟩

/-! ## C7 -/

/-- C7: refutation of the never-fails claim at a concrete input — on a
bundle holding a single Condition whose code carries an explicitly empty
coding list, the timeline builder raises IndexError instead of degrading
to an event-free timeline (the defensive list defaults in the source only
cover a missing coding key, not a present-but-empty list). -/
theorem processTimeline_raises_on_empty_coding :
    processTimeline [⟨some condEmptyCoding⟩] "p"
      = .error "list index out of range" := rfl

/-! ## C8 -/

theorem pyEndsWith_append (x v : String) : pyEndsWith (x ++ v) v = true := by
  unfold pyEndsWith
  rw [String.data_append]
  exact List.isSuffixOf_iff_suffix.mpr (List.suffix_append _ _)

/-- The search parameter semantics exactly as the claim words them: an _id
parameter requires the resource id to equal the value; a patient or
subject parameter requires the subject reference to equal the
type-qualified reference or to end with the value; other parameters are
unconstrained. -/
def paramMatchesC8 (resource_type : String) (r : Resource)
    (pv : String × String) : Bool :=
  if pv.1 == "_id" then r.id == some pv.2
  else if pv.1 == "patient" || pv.1 == "subject" then
    ((r.subject.bind Ref.reference).getD ""
        == resource_type ++ "/" ++ pv.2)
      || pyEndsWith ((r.subject.bind Ref.reference).getD "") pv.2
  else true

theorem matchesSearchParams_eq_claim (rt : String) (r : Resource)
    (params : List (String × String)) :
    matchesSearchParams r params = params.all (paramMatchesC8 rt r) := by
  unfold matchesSearchParams
  apply congrArg (List.all params)
  funext pv
  unfold paramMatchesC8
  by_cases h1 : pv.1 == "_id"
  · rw [if_pos h1, if_pos h1]
  · rw [if_neg h1, if_neg h1]
    by_cases h2 : pv.1 == "patient" || pv.1 == "subject"
    · rw [if_pos h2, if_pos h2]
      set s := (r.subject.bind Ref.reference).getD "" with hs
      by_cases he : pyEndsWith s pv.2
      · simp [he]
      · have he' : pyEndsWith s pv.2 = false := by
          cases hx : pyEndsWith s pv.2
          · rfl
          · exact absurd hx he
        have hb : (s == "Patient/" ++ pv.2) = false := by
          cases hbe : (s == "Patient/" ++ pv.2)
          · rfl
          · have : pyEndsWith s pv.2 = true := by
              rw [eq_of_beq hbe]
              exact pyEndsWith_append _ _
            exact absurd this he
        have hc : (s == rt ++ "/" ++ pv.2) = false := by
          cases hce : (s == rt ++ "/" ++ pv.2)
          · rfl
          · have : pyEndsWith s pv.2 = true := by
              rw [eq_of_beq hce]
              exact pyEndsWith_append _ _
            exact absurd this he
        simp only [he', hb, hc, Bool.false_or, Bool.or_false]
    · rw [if_neg h2, if_neg h2]

/-- C8: search returns exactly the stored resources of the requested type
for which every search parameter is satisfied in the sense of the claim —
_id means exact identifier equality, patient and subject match when the
subject reference equals the type-qualified value or ends with the value
as a suffix. -/
theorem searchResources_exact (store : Store) (rt : String)
    (params : List (String × String)) :
    searchResources store rt params =
      (((dictGet? store rt).getD []).map Prod.snd).filter
        (fun r => params.all (paramMatchesC8 rt r)) := by
  unfold searchResources
  rw [List.filter_map]
  apply congrArg (List.map Prod.snd)
  apply List.filter_congr
  intro p _
  exact matchesSearchParams_eq_claim rt p.2 params

/-! ## C6 -/

/-- Every stored (type, identifier, resource) triple in store iteration
order. -/
def storeItems (store : Store) : List (String × String × Resource) :=
  store.flatMap (fun tp => tp.2.map (fun p => (tp.1, p.1, p.2)))

/-- The everything bundle exactly as the claim words it: the stored
Patient resource followed by every other stored entry (of any type, the
target Patient entry itself excluded) whose subject or patient reference
matches, in store iteration order. -/
def assembleClaimC6 (store : Store) (patient_id : String) :
    Option (List Resource) :=
  match getResource store "Patient" patient_id with
  | none => none
  | some patient =>
    some (patient :: (storeItems store).filterMap (fun t =>
      if !(t.1 == "Patient" && t.2.1 == patient_id)
          && resourceReferencesPatient t.2.2 patient_id
      then some t.2.2 else none))

/-- The amended everything bundle: as the claim, except that every entry
stored under the Patient type — not merely the target entry — is excluded
from the reference scan. -/
def assembleClaimC6Amended (store : Store) (patient_id : String) :
    Option (List Resource) :=
  match getResource store "Patient" patient_id with
  | none => none
  | some patient =>
    some (patient :: (storeItems store).filterMap (fun t =>
      if t.1 != "Patient" && resourceReferencesPatient t.2.2 patient_id
      then some t.2.2 else none))

/-- A stored Patient resource with identifier P1. -/
def patientP1 : Resource :=
  { resourceType := some "Patient", id := some "P1" }

/-- A second stored Patient resource whose patient reference points at
P1. -/
def patientP2ref : Resource :=
  { resourceType := some "Patient", id := some "P2",
    patient := some { reference := some "Patient/P1" } }

/-- A store holding both Patient resources. -/
def storePatientRef : Store :=
  [("Patient", [("P1", patientP1), ("P2", patientP2ref)])]

/-- C6: counterexample to the claim as stated — on a store where a second
Patient-type resource carries a patient reference to the requested
patient, the claim demands that resource in the bundle, but the assembler
skips the whole Patient type and omits it. -/
theorem getPatientEverything_ne_claim :
    getPatientEverything storePatientRef "P1"
      ≠ assembleClaimC6 storePatientRef "P1" := by decide

theorem perTypeScan_eq (ty : String) (rs : List (String × Resource))
    (pid : String) :
    (if ty == "Patient" then ([] : List Resource)
     else (rs.filter (fun p =>
       resourceReferencesPatient p.2 pid)).map Prod.snd)
    = (rs.map (fun p => (ty, p.1, p.2))).filterMap (fun t =>
        if t.1 != "Patient" && resourceReferencesPatient t.2.2 pid
        then some t.2.2 else none) := by
  by_cases h : ty == "Patient"
  · rw [if_pos h]
    have hb : (ty != "Patient") = false := by simp [bne, h]
    induction rs with
    | nil => rfl
    | cons p rest ih =>
      simp only [List.map_cons, List.filterMap_cons, hb, Bool.false_and,
        Bool.false_eq_true, if_false]
      exact ih
  · rw [if_neg h]
    have h' : (ty == "Patient") = false := by
      cases hx : ty == "Patient"
      · rfl
      · exact absurd hx h
    have hb : (ty != "Patient") = true := by simp [bne, h']
    induction rs with
    | nil => rfl
    | cons p rest ih =>
      simp only [List.filter_cons, List.map_cons, List.filterMap_cons, hb,
        Bool.true_and]
      cases hr : resourceReferencesPatient p.2 pid
      · simpa [hr] using ih
      · simpa [hr] using ih

theorem flatMap_eq_filterMap_storeItems (store : Store) (pid : String) :
    store.flatMap (fun tp =>
      if tp.1 == "Patient" then []
      else (tp.2.filter (fun p =>
        resourceReferencesPatient p.2 pid)).map Prod.snd)
    = (storeItems store).filterMap (fun t =>
      if t.1 != "Patient" && resourceReferencesPatient t.2.2 pid
      then some t.2.2 else none) := by
  induction store with
  | nil => rfl
  | cons tp rest ih =>
    unfold storeItems at *
    rw [List.flatMap_cons, List.flatMap_cons, List.filterMap_append, ← ih]
    exact congrArg (fun l => l ++ _) (perTypeScan_eq tp.1 tp.2 pid)

/-- C6 (amended): the assembler fails exactly when no Patient resource is
stored under the identifier; otherwise it returns the Patient resource
followed by exactly those resources stored under non-Patient types whose
subject or patient reference equals the Patient-qualified identifier, in
store iteration order. -/
theorem getPatientEverything_amended (store : Store) (pid : String) :
    (getPatientEverything store pid = none
      ↔ getResource store "Patient" pid = none)
    ∧ getPatientEverything store pid = assembleClaimC6Amended store pid := by
  constructor
  · unfold getPatientEverything
    cases h : getResource store "Patient" pid <;> simp [h]
  · unfold getPatientEverything assembleClaimC6Amended
    cases h : getResource store "Patient" pid
    · rfl
    · simpa using flatMap_eq_filterMap_storeItems store pid

/-! ## C5 -/

/-- The primary date of a resource, following the per-type extraction rule
of the source: Condition takes onset else recorded, Procedure the
performed date, DocumentReference the document date, Observation the
effective date, MedicationRequest the authored-on date, Patient the birth
date, Encounter none, and anything else the generic timestamp search. -/
def primaryDate (r : Resource) : Option String :=
  if r.resourceType == some "Patient" then r.birthDate
  else if r.resourceType == some "Encounter" then none
  else if r.resourceType == some "Condition" then
    pyOr r.onsetDateTime r.recordedDate
  else if r.resourceType == some "Procedure" then r.performedDateTime
  else if r.resourceType == some "DocumentReference" then r.date
  else if r.resourceType == some "Observation" then r.effectiveDateTime
  else if r.resourceType == some "MedicationRequest" then r.authoredOn
  else extractTimestampFromResource r

theorem pyToLower_eq_empty_iff (t : String) : pyToLower t = "" ↔ t = "" := by
  unfold pyToLower
  rw [@String.ext_iff ⟨t.data.map Char.toLower⟩ "", @String.ext_iff t ""]
  simp [List.map_eq_nil_iff]

/-- The truthiness of the fallback category computed from an arbitrary
resource type. -/
theorem truthy_fallback_category (rt : Option String) :
    truthy (some (match rt with
      | some t => if t == "" then "unknown" else pyToLower t
      | none => "unknown")) = true := by
  cases rt with
  | none => rfl
  | some t =>
    show truthy (some (if t == "" then "unknown" else pyToLower t)) = true
    by_cases he : t == ""
    · simp [truthy, he]
    · rw [if_neg he]
      have hne : t ≠ "" := fun hc => he (beq_iff_eq.mpr hc)
      have hlow : pyToLower t ≠ "" :=
        fun hc => hne ((pyToLower_eq_empty_iff t).mp hc)
      simpa [truthy, bne_iff_ne] using hlow

/-- Inversion of the type dispatch: every returned triple carries the
primary date of the resource and a truthy category. -/
theorem createEventCore_date (r : Resource) (d c : Option String)
    (det : Details) (h : createEventCore r = .ok (some (d, c, det))) :
    d = primaryDate r ∧ truthy c = true := by
  unfold createEventCore at h
  repeat' (first | split at h | simp only [] at h)
  all_goals first
    | exact Except.noConfusion h
    | exact Except.noConfusion h (fun h' => Option.noConfusion h')
    | (injection h with h1'
       injection h1' with h2'
       simp only [Prod.mk.injEq] at h2'
       obtain ⟨rfl, rfl, rfl⟩ := h2'
       exact ⟨by simp_all [primaryDate, beq_iff_eq],
         by simp_all [truthy, bne_iff_ne, pyToLower_eq_empty_iff,
           beq_iff_eq]⟩)

/-- Inversion of the type dispatch: a none result happens only on
Encounter resources. -/
theorem createEventCore_none (r : Resource)
    (h : createEventCore r = .ok none) :
    r.resourceType = some "Encounter" := by
  unfold createEventCore at h
  repeat' (first | split at h | simp only [] at h)
  all_goals first
    | exact Except.noConfusion h
    | exact Except.noConfusion h (fun h' => Option.noConfusion h')
    | simp_all [beq_iff_eq]

/-- A bundle holding one non-Encounter resource that yields no event
builds the empty timeline for the requested patient identifier. -/
theorem processTimeline_single_noEvent (r : Resource) (pid : String)
    (hE : (r.resourceType == some "Encounter") = false)
    (h : createEventFromResource r = .ok none) :
    processTimeline [⟨some r⟩] pid = .ok { patient_id := pid } := by
  simp only [processTimeline, pass1, pass2, pass3, hE, h, Option.getD_some,
    Bool.false_eq_true, if_false, List.insertionSort, finalizeTimeline,
    sortEvents, summarizeShell, datedOf, undatedOf]
  rfl

/-- C5 (amended): for a non-Patient, non-Encounter resource on which the
extractor returns normally (it raises on explicitly empty coding or type
sub-lists), an event is produced exactly when the primary date is truthy
or the resource carries an encounter or context key; the event is undated
exactly when no truthy date was found; and a resource producing no event
leaves the single-resource timeline empty, appearing nowhere. -/
theorem createEvent_iff_date_or_ref (r : Resource) (out : Option Event)
    (hP : r.resourceType ≠ some "Patient")
    (hE : r.resourceType ≠ some "Encounter")
    (h : createEventFromResource r = .ok out) :
    out.isSome = (truthy (primaryDate r)
      || (r.encounter.isSome || r.context.isSome))
    ∧ (∀ ev, out = some ev → ev.undated = !(truthy (primaryDate r)))
    ∧ (out = none → ∀ pid, processTimeline [⟨some r⟩] pid
        = .ok { patient_id := pid }) := by
  have h0 : createEventFromResource r = .ok out := h
  unfold createEventFromResource at h
  cases hcore : createEventCore r with
  | error e =>
    rw [hcore] at h
    exact Except.noConfusion h
  | ok o =>
    rw [hcore] at h
    cases o with
    | none => exact absurd (createEventCore_none r hcore) hE
    | some triple =>
      obtain ⟨d, c, det⟩ := triple
      obtain ⟨hd, hc⟩ := createEventCore_date r d c det hcore
      subst hd
      simp only [hc, Bool.and_true] at h
      by_cases hcond : (truthy (primaryDate r)
          || (r.encounter.isSome || r.context.isSome)) = true
      · rw [if_pos hcond] at h
        injection h with h'
        refine ⟨?_, ?_, ?_⟩
        · rw [← h', hcond]
          rfl
        · intro ev hev
          rw [← h'] at hev
          injection hev with hev'
          rw [← hev']
        · intro hnone
          rw [← h'] at hnone
          exact Option.noConfusion hnone
      · rw [if_neg hcond] at h
        injection h with h'
        have hcond' : (truthy (primaryDate r)
            || (r.encounter.isSome || r.context.isSome)) = false := by
          cases hx : (truthy (primaryDate r)
              || (r.encounter.isSome || r.context.isSome))
          · rfl
          · exact absurd hx hcond
        refine ⟨?_, ?_, ?_⟩
        · rw [← h', hcond']
          rfl
        · intro ev hev
          rw [← h'] at hev
          exact Option.noConfusion hev
        · intro _ pid
          apply processTimeline_single_noEvent r pid ?_ (h' ▸ h0)
          cases hx : r.resourceType == some "Encounter"
          · rfl
          · exact absurd (eq_of_beq hx) hE

/-- C5: counterexample to the claim as stated — a Procedure resource with
a truthy performed date but an explicitly empty coding list produces no
event at all: the extractor raises IndexError while the claim requires an
event whenever a primary date was found. -/
theorem createEvent_iff_counterexample :
    truthy (primaryDate procEmptyCoding) = true
    ∧ (procEmptyCoding.resourceType == some "Patient") = false
    ∧ (procEmptyCoding.resourceType == some "Encounter") = false
    ∧ createEventFromResource procEmptyCoding
        = .error "list index out of range" :=
  ⟨rfl, rfl, rfl, rfl⟩

/-- The event the extractor returns for the plain observation fixture. -/
def obsPlainEvent : Event :=
  { date := some "2021-01-02", undated := false, «type» := some "Observation",
    category := some "observation", resource_id := some "O3",
    encounter_referenced := "",
    details := [("code_display", .s none), ("code", .s none),
      ("code_system", .s none)] }

/-- Witness for C5 at the plain observation fixture. -/
theorem createEvent_iff_witness :
    obsPlain.resourceType ≠ some "Patient"
    ∧ obsPlain.resourceType ≠ some "Encounter"
    ∧ (some obsPlainEvent : Option Event).isSome
        = (truthy (primaryDate obsPlain)
          || (obsPlain.encounter.isSome || obsPlain.context.isSome)) :=
  ⟨by decide, by decide,
    (createEvent_iff_date_or_ref obsPlain (some obsPlainEvent) (by decide)
      (by decide) rfl).1⟩

/-! ## C3 -/

/-- The containment test exactly as the claim words it: start below date
below end when both bounds are present (truthy), date at or after start
when only start is present, and no match otherwise. -/
def windowContainsC3 (sh : EncounterShell) (d : String) : Bool :=
  if truthy sh.start && truthy sh.«end» then
    pyStrLe (sh.start.getD "") d && pyStrLe d ((sh.«end»).getD "")
  else if truthy sh.start then pyStrLe (sh.start.getD "") d
  else false

theorem encWindowTest_eq_claim (sh : EncounterShell) (d : String) :
    encWindowTest sh d = windowContainsC3 sh d := by
  unfold encWindowTest windowContainsC3
  cases hs : truthy sh.start <;> cases he : truthy sh.«end» <;>
    simp [hs, he]

/-- An event has some containing encounter window iff it carries a truthy
date and some shell window contains it. -/
def hasWindowFor (encs : Shells) (ev : Event) : Bool :=
  truthy ev.date &&
    encs.any (fun p => windowContainsC3 p.2 (ev.date.getD ""))

theorem windowContainsC3_congr (sh sh' : EncounterShell) (d : String)
    (hs : sh.start = sh'.start) (he : sh.«end» = sh'.«end») :
    windowContainsC3 sh d = windowContainsC3 sh' d := by
  unfold windowContainsC3
  rw [hs, he]

/-- A successful window assignment rewrites only one shell event list,
leaving every key and window untouched. -/
theorem assignByWindow_windows (encs : Shells) (ev : Event)
    (encs' : Shells) (h : assignByWindow encs ev = some encs') :
    encs'.map (fun p => (p.1, p.2.start, p.2.«end»))
      = encs.map (fun p => (p.1, p.2.start, p.2.«end»)) := by
  induction encs generalizing encs' with
  | nil => exact Option.noConfusion h
  | cons p rest ih =>
    obtain ⟨k, sh⟩ := p
    unfold assignByWindow at h
    by_cases hw : encWindowTest sh (ev.date.getD "")
    · rw [if_pos hw] at h
      injection h with h'
      rw [← h']
      simp
    · rw [if_neg hw] at h
      cases ha : assignByWindow rest ev with
      | none => rw [ha] at h; exact Option.noConfusion h
      | some rest2 =>
        rw [ha] at h
        injection h with h'
        rw [← h']
        simpa using ih rest2 ha

theorem any_window_congr (encs encs' : Shells) (d : String)
    (h : encs'.map (fun p => (p.1, p.2.start, p.2.«end»))
      = encs.map (fun p => (p.1, p.2.start, p.2.«end»))) :
    encs'.any (fun p => windowContainsC3 p.2 d)
      = encs.any (fun p => windowContainsC3 p.2 d) := by
  induction encs generalizing encs' with
  | nil =>
    cases encs' with
    | nil => rfl
    | cons q qs => exact absurd h (by simp)
  | cons p rest ih =>
    cases encs' with
    | nil => exact absurd h (by simp)
    | cons q qs =>
      simp only [List.map_cons, List.cons.injEq, Prod.mk.injEq] at h
      obtain ⟨⟨-, hs, he⟩, htail⟩ := h
      simp only [List.any_cons]
      rw [windowContainsC3_congr q.2 p.2 d hs he, ih qs htail]

/-- The first-match structure of the pass-3 inner loop: when some window
contains the date the first such shell in dict order receives the event
and nothing else changes; when no window contains it the loop fails. -/
theorem assignByWindow_first (encs : Shells) (ev : Event) :
    match encs.find? (fun p => windowContainsC3 p.2 (ev.date.getD "")) with
    | none => assignByWindow encs ev = none
    | some _ =>
      ∃ pre k sh post,
        encs = pre ++ (k, sh) :: post
        ∧ (∀ p ∈ pre, windowContainsC3 p.2 (ev.date.getD "") = false)
        ∧ windowContainsC3 sh (ev.date.getD "") = true
        ∧ assignByWindow encs ev
            = some (pre ++ (k, { sh with events := sh.events ++ [ev] })
              :: post) := by
  induction encs with
  | nil => simp [assignByWindow]
  | cons p rest ih =>
    obtain ⟨k, sh⟩ := p
    by_cases hw : windowContainsC3 sh (ev.date.getD "")
    · rw [List.find?_cons_of_pos _ (by simpa using hw)]
      refine ⟨[], k, sh, rest, by simp, by simp, hw, ?_⟩
      unfold assignByWindow
      rw [if_pos (by rw [encWindowTest_eq_claim]; exact hw)]
      simp
    · have hw' : windowContainsC3 sh (ev.date.getD "") = false := by
        cases hx : windowContainsC3 sh (ev.date.getD "")
        · rfl
        · exact absurd hx hw
      rw [List.find?_cons_of_neg _ (by simpa using hw)]
      cases hf : rest.find? (fun p => windowContainsC3 p.2 (ev.date.getD ""))
        with
      | none =>
        rw [hf] at ih
        unfold assignByWindow
        rw [if_neg (by rw [encWindowTest_eq_claim]; exact hw), ih]
      | some q =>
        rw [hf] at ih
        obtain ⟨pre, k', sh', post, hsplit, hpre, hwin, hassign⟩ := ih
        refine ⟨(k, sh) :: pre, k', sh', post,
          by rw [hsplit, List.cons_append], ?_, hwin, ?_⟩
        · intro p hp
          rcases List.mem_cons.mp hp with rfl | hp'
          · exact hw'
          · exact hpre p hp'
        · unfold assignByWindow
          rw [if_neg (by rw [encWindowTest_eq_claim]; exact hw), hassign]
          simp

/-- Pass 3 routes exactly the events without a truthy date or without any
containing window into the remaining list, preserving their order. -/
theorem pass3_remaining (pending : List Event) (encs : Shells)
    (rem : List Event) :
    (pass3 pending encs rem).2
      = rem ++ pending.filter (fun ev => !hasWindowFor encs ev) := by
  induction pending generalizing encs rem with
  | nil => simp [pass3]
  | cons ev rest ih =>
    unfold pass3
    by_cases hd : truthy ev.date
    · rw [if_pos hd]
      cases ha : assignByWindow encs ev with
      | none =>
        have hnf := assignByWindow_first encs ev
        have hanone : encs.any
            (fun p => windowContainsC3 p.2 (ev.date.getD "")) = false := by
          cases hf : encs.find?
              (fun p => windowContainsC3 p.2 (ev.date.getD "")) with
          | none =>
            rw [List.find?_eq_none] at hf
            cases hany : encs.any
                (fun p => windowContainsC3 p.2 (ev.date.getD "")) with
            | false => rfl
            | true =>
              obtain ⟨x, hx, hpx⟩ := List.any_eq_true.mp hany
              exact absurd hpx (by simpa using hf x hx)
          | some q =>
            rw [hf] at hnf
            obtain ⟨pre, k', sh', post, -, -, -, hassign⟩ := hnf
            rw [hassign] at ha
            exact Option.noConfusion ha
        have hkeep : (!hasWindowFor encs ev) = true := by
          simp [hasWindowFor, hanone]
        rw [ih encs (rem ++ [ev]), List.filter_cons, hkeep]
        simp
      | some encs2 =>
        have hnf := assignByWindow_first encs ev
        have hasome : encs.any
            (fun p => windowContainsC3 p.2 (ev.date.getD "")) = true := by
          cases hf : encs.find?
              (fun p => windowContainsC3 p.2 (ev.date.getD "")) with
          | none =>
            rw [hf] at hnf
            rw [hnf] at ha
            exact Option.noConfusion ha
          | some q =>
            have := List.find?_some hf
            exact List.any_eq_true.mpr ⟨q, List.mem_of_find?_eq_some hf,
              this⟩
        have hdrop : (!hasWindowFor encs ev) = false := by
          simp [hasWindowFor, hd, hasome]
        rw [ih encs2 rem, List.filter_cons, hdrop]
        have hwin := assignByWindow_windows encs ev encs2 ha
        have hfil : rest.filter (fun e => !hasWindowFor encs2 e)
            = rest.filter (fun e => !hasWindowFor encs e) := by
          apply List.filter_congr
          intro e _
          unfold hasWindowFor
          rw [any_window_congr encs encs2 (e.date.getD "") hwin]
        rw [hfil]
        simp
    · rw [if_neg hd]
      have hd' : truthy ev.date = false := by
        cases hx : truthy ev.date
        · rfl
        · exact absurd hx hd
      have hkeep : (!hasWindowFor encs ev) = true := by
        simp [hasWindowFor, hd']
      rw [ih encs (rem ++ [ev]), List.filter_cons, hkeep]
      simp

theorem dictContains_eq_contains {α β : Type} [BEq α] [LawfulBEq α]
    (m : List (α × β)) (k : α) :
    dictContains m k = (m.map Prod.fst).contains k := by
  rw [Bool.eq_iff_iff, dictContains_iff]
  exact Iff.symm List.elem_iff

/-- Pass 1 over arbitrary accumulators: the final dict keys are the
left fold of first-occurrence insertion over the discovered encounter
identifiers, and the order list is the accumulator extended with every
discovered identifier. -/
theorem pass1_keys_aux (entries : List Entry) :
    ∀ (encs : Shells) (order : List (Option String)) s o,
      pass1 entries encs order = .ok (s, o) →
      s.map Prod.fst = (encounterIds entries).foldl
        (fun acc x => if acc.contains x then acc else acc ++ [x])
        (encs.map Prod.fst)
      ∧ o = order ++ encounterIds entries := by
  induction entries with
  | nil =>
    intro encs order s o h
    unfold pass1 at h
    injection h with h'
    simp only [Prod.mk.injEq] at h'
    obtain ⟨rfl, rfl⟩ := h'
    simp [encounterIds]
  | cons entry rest ih =>
    intro encs order s o h
    unfold pass1 at h
    by_cases hEnc : ((entry.resource.getD default).resourceType
        == some "Encounter") = true
    · rw [if_pos hEnc] at h
      cases htc : encTypeCoding (entry.resource.getD default).«type» with
      | error e =>
        rw [htc] at h
        exact Except.noConfusion h
      | ok tc =>
        rw [htc] at h
        obtain ⟨h1, h2⟩ := ih _ _ _ _ h
        have hids : encounterIds (entry :: rest)
            = (entry.resource.getD default).id :: encounterIds rest := by
          have hEnc' : (entry.resource.getD default).resourceType
              = some "Encounter" := eq_of_beq hEnc
          simp [encounterIds, List.filterMap_cons, hEnc']
        constructor
        · rw [h1, hids]
          simp only [List.foldl_cons]
          congr 1
          rw [dictSet_keys, dictContains_eq_contains]
        · rw [h2, hids]
          simp
    · rw [if_neg hEnc] at h
      obtain ⟨h1, h2⟩ := ih _ _ _ _ h
      have hids : encounterIds (entry :: rest) = encounterIds rest := by
        have hEnc' : (entry.resource.getD default).resourceType
            ≠ some "Encounter" := fun hc => hEnc (beq_iff_eq.mpr hc)
        simp [encounterIds, List.filterMap_cons, hEnc']
      exact ⟨by rw [h1, hids], by rw [h2, hids]⟩

/-- Pass 1 starting empty: the dict keys are the first occurrences of the
discovery-order identifier list, and the order list is exactly the
discovery-order identifier list. -/
theorem pass1_discovery (bundle : List Entry) (s : Shells)
    (o : List (Option String)) (h : pass1 bundle [] [] = .ok (s, o)) :
    s.map Prod.fst = firstOccurrences (encounterIds bundle)
    ∧ o = encounterIds bundle := by
  obtain ⟨h1, h2⟩ := pass1_keys_aux bundle [] [] s o h
  exact ⟨by rw [h1]; rfl, by simpa using h2⟩

/-- C3: pass 3 tests the encounters in discovery order — the encounters
dict is keyed by the first occurrences of the identifiers of the Encounter
resources in bundle order, not by start time — the membership test is the
claimed one (start below date below end with both bounds present, date at
or past start with only a start), the first shell whose window contains a
dated pending event receives it, and pending events without a truthy date
or with no containing window end up in the remaining non-encounter list in
order. -/
theorem pass3_first_satisfying_encounter :
    (∀ sh d, encWindowTest sh d = windowContainsC3 sh d)
    ∧ (∀ (encs : Shells) (ev : Event), truthy ev.date = true →
        (match encs.find?
            (fun p => windowContainsC3 p.2 (ev.date.getD "")) with
         | none => assignByWindow encs ev = none
         | some _ =>
           ∃ pre k sh post, encs = pre ++ (k, sh) :: post
             ∧ (∀ p ∈ pre,
                 windowContainsC3 p.2 (ev.date.getD "") = false)
             ∧ windowContainsC3 sh (ev.date.getD "") = true
             ∧ assignByWindow encs ev = some (pre
                 ++ (k, { sh with events := sh.events ++ [ev] }) :: post)))
    ∧ (∀ pending encs, (pass3 pending encs []).2
        = pending.filter (fun ev => !hasWindowFor encs ev))
    ∧ (∀ bundle s o, pass1 bundle [] [] = .ok (s, o) →
        s.map Prod.fst = firstOccurrences (encounterIds bundle)
        ∧ o = encounterIds bundle) :=
  ⟨encWindowTest_eq_claim,
   fun encs ev _ => assignByWindow_first encs ev,
   fun pending encs => by simpa using pass3_remaining pending encs [],
   pass1_discovery⟩

/-- The shell pass 1 builds for the E1 encounter fixture. -/
def shellE1 : EncounterShell :=
  { id := some "E1", start := some "2021-01-01",
    «end» := some "2021-01-05" }

/-- A dated pending event inside the E1 window. -/
def evP3 : Event := { date := some "2021-01-02" }

/-- Witness for C3 at the E1 fixture. -/
theorem pass3_first_satisfying_encounter_witness :
    truthy evP3.date = true
    ∧ (match [((some "E1" : Option String), shellE1)].find?
          (fun p => windowContainsC3 p.2 (evP3.date.getD "")) with
       | none => assignByWindow [(some "E1", shellE1)] evP3 = none
       | some _ =>
         ∃ pre k sh post,
           [((some "E1" : Option String), shellE1)] = pre ++ (k, sh) :: post
           ∧ (∀ p ∈ pre,
               windowContainsC3 p.2 (evP3.date.getD "") = false)
           ∧ windowContainsC3 sh (evP3.date.getD "") = true
           ∧ assignByWindow [(some "E1", shellE1)] evP3 = some (pre
               ++ (k, { sh with events := sh.events ++ [evP3] }) :: post))
    ∧ (pass3 [evP3] [(some "E1", shellE1)] []).2
        = [evP3].filter
          (fun ev => !hasWindowFor [(some "E1", shellE1)] ev)
    ∧ pass1 [⟨some encE1⟩] [] [] = .ok ([(some "E1", shellE1)], [some "E1"])
    ∧ [((some "E1" : Option String), shellE1)].map Prod.fst
        = firstOccurrences (encounterIds [⟨some encE1⟩]) :=
  ⟨rfl,
   pass3_first_satisfying_encounter.2.1 [(some "E1", shellE1)] evP3 rfl,
   pass3_first_satisfying_encounter.2.2.1 [evP3] [(some "E1", shellE1)],
   rfl,
   (pass3_first_satisfying_encounter.2.2.2 [⟨some encE1⟩] _ _ rfl).1⟩

/-! ## C10 -/

/-- A successful window assignment leaves all keys in place and each shell
either untouched or with exactly the offered event appended. -/
theorem assignByWindow_frame (encs : Shells) (ev : Event) (encs' : Shells)
    (h : assignByWindow encs ev = some encs') :
    encs'.map Prod.fst = encs.map Prod.fst
    ∧ ∀ k sh', dictGet? encs' k = some sh' →
        ∃ sh, dictGet? encs k = some sh
          ∧ (sh' = sh ∨ sh' = { sh with events := sh.events ++ [ev] }) := by
  induction encs generalizing encs' with
  | nil => exact Option.noConfusion h
  | cons p rest ih =>
    obtain ⟨k0, sh0⟩ := p
    unfold assignByWindow at h
    by_cases hw : encWindowTest sh0 (ev.date.getD "")
    · rw [if_pos hw] at h
      injection h with h'
      subst h'
      refine ⟨by simp, fun k sh' hget => ?_⟩
      cases hk : ((k0 : Option String) == k) with
      | false =>
        rw [dictGet?, List.find?_cons_of_neg _ (by simp [hk])] at hget
        exact ⟨sh', by
          rw [dictGet?, List.find?_cons_of_neg _ (by simp [hk])]
          exact hget, Or.inl rfl⟩
      | true =>
        rw [dictGet?, List.find?_cons_of_pos _ (by simpa using hk)] at hget
        injection hget with hg
        exact ⟨sh0, by
          rw [dictGet?, List.find?_cons_of_pos _ (by simpa using hk)]
          rfl,
          Or.inr hg.symm⟩
    · rw [if_neg hw] at h
      cases ha : assignByWindow rest ev with
      | none =>
        rw [ha] at h
        exact Option.noConfusion h
      | some rest2 =>
        rw [ha] at h
        injection h with h'
        subst h'
        obtain ⟨hkeys, hframe⟩ := ih rest2 ha
        refine ⟨by simp [hkeys], fun k sh' hget => ?_⟩
        cases hk : ((k0 : Option String) == k) with
        | false =>
          rw [dictGet?, List.find?_cons_of_neg _ (by simp [hk])] at hget
          obtain ⟨sh, hsh, hor⟩ := hframe k sh' hget
          exact ⟨sh, by
            rw [dictGet?, List.find?_cons_of_neg _ (by simp [hk])]
            exact hsh, hor⟩
        | true =>
          rw [dictGet?, List.find?_cons_of_pos _ (by simpa using hk)] at hget
          injection hget with hg
          exact ⟨sh0, by
            rw [dictGet?, List.find?_cons_of_pos _ (by simpa using hk)]
            rfl,
            Or.inl hg.symm⟩

/-- C10 (amended): pass-3 placement is a pure frame extension — it leaves
every key in place and every shell equal to its old self with a sublist of
the pending events appended verbatim, so no field of any placed Event is
modified; in particular encounter_referenced keeps whatever value pass 2
stored in it (the literal none marker when no reference was resolved, or
the unresolved reference string when the reference named an unknown
encounter). -/
theorem pass3_frame (pending : List Event) (encs : Shells)
    (rem : List Event) (encs' : Shells) (rem' : List Event)
    (h : pass3 pending encs rem = (encs', rem')) :
    encs'.map Prod.fst = encs.map Prod.fst
    ∧ ∀ k sh', dictGet? encs' k = some sh' →
        ∃ sh ext, dictGet? encs k = some sh
          ∧ sh' = { sh with events := sh.events ++ ext }
          ∧ ext.Sublist pending := by
  induction pending generalizing encs rem encs' rem' with
  | nil =>
    unfold pass3 at h
    injection h with h1 h2
    subst h1
    exact ⟨rfl, fun k sh' hget =>
      ⟨sh', [], hget, by simp, List.nil_sublist _⟩⟩
  | cons ev rest ih =>
    unfold pass3 at h
    by_cases hd : truthy ev.date
    · rw [if_pos hd] at h
      cases ha : assignByWindow encs ev with
      | none =>
        rw [ha] at h
        obtain ⟨hkeys, hframe⟩ := ih _ _ _ _ h
        refine ⟨hkeys, fun k sh' hget => ?_⟩
        obtain ⟨sh, ext, hsh, heq, hsub⟩ := hframe k sh' hget
        exact ⟨sh, ext, hsh, heq,
          hsub.trans (List.sublist_cons_self ev rest)⟩
      | some encs2 =>
        rw [ha] at h
        obtain ⟨hkeys2, hframe2⟩ := ih _ _ _ _ h
        obtain ⟨hkeysA, hframeA⟩ := assignByWindow_frame encs ev encs2 ha
        refine ⟨hkeys2.trans hkeysA, fun k sh' hget => ?_⟩
        obtain ⟨sh2, ext, hsh2, heq, hsub⟩ := hframe2 k sh' hget
        obtain ⟨sh, hsh, hor⟩ := hframeA k sh2 hsh2
        rcases hor with rfl | hupd
        · exact ⟨sh2, ext, hsh, heq,
            hsub.trans (List.sublist_cons_self ev rest)⟩
        · refine ⟨sh, ev :: ext, hsh, ?_, List.Sublist.cons₂ ev hsub⟩
          rw [heq, hupd]
          simp
    · rw [if_neg hd] at h
      obtain ⟨hkeys, hframe⟩ := ih _ _ _ _ h
      refine ⟨hkeys, fun k sh' hget => ?_⟩
      obtain ⟨sh, ext, hsh, heq, hsub⟩ := hframe k sh' hget
      exact ⟨sh, ext, hsh, heq,
        hsub.trans (List.sublist_cons_self ev rest)⟩

/-- C10: counterexample to the claim as stated — an observation whose
reference names the unknown encounter E9 is placed into E1 by pass-3
window reconciliation while its encounter_referenced marker is the
unresolved string E9, not the literal none marker the claim asserts. -/
theorem pass3_placement_ref_counterexample :
    (processTimeline [⟨some encE1⟩, ⟨some obsUnknownRef⟩] "p").toOption.map
      (fun t => t.encounters.map (fun es =>
        (es.encounter_id, es.events.map Event.encounter_referenced)))
      = some [(some "E1", ["E9"])]
    ∧ ("E9" : String) ≠ "none" :=
  ⟨rfl, by decide⟩

/-- Witness for C10 at the E1 fixture. -/
theorem pass3_frame_witness :
    pass3 [evP3] [(some "E1", shellE1)] []
      = ([(some "E1", { shellE1 with events := [evP3] })], [])
    ∧ [((some "E1" : Option String),
        { shellE1 with events := [evP3] })].map Prod.fst
      = [((some "E1" : Option String), shellE1)].map Prod.fst :=
  ⟨rfl, (pass3_frame [evP3] [(some "E1", shellE1)] [] _ _ rfl).1⟩

/-! ## Shared pipeline inversion and frame lemmas -/

theorem processTimeline_ok_elim (bundle : List Entry) (pid : String)
    (t : Timeline) (h : processTimeline bundle pid = .ok t) :
    ∃ encs1 encounter_order encs2 demo pending,
      pass1 bundle [] [] = .ok (encs1, encounter_order)
      ∧ pass2 bundle encs1 none [] = .ok (encs2, demo, pending)
      ∧ t = finalizeTimeline pid
          (encounter_order.insertionSort (fun a b =>
            pyStrLe (startKey encs1 a) (startKey encs1 b) = true))
          demo (pass3 pending encs2 []).1 (pass3 pending encs2 []).2 := by
  unfold processTimeline at h
  split at h
  next => exact Except.noConfusion h
  next encs1 order heq1 =>
    split at h
    next => exact Except.noConfusion h
    next encs2 demo pending heq2 =>
      injection h with h'
      exact ⟨encs1, order, encs2, demo, pending, heq1, heq2, h'.symm⟩

theorem pass2_keys (entries : List Entry) :
    ∀ (encs : Shells) demo pending encs' demo' pending',
      pass2 entries encs demo pending = .ok (encs', demo', pending') →
      encs'.map Prod.fst = encs.map Prod.fst := by
  induction entries with
  | nil =>
    intro encs demo pending e' d' p' h
    unfold pass2 at h
    injection h with h'
    simp only [Prod.mk.injEq] at h'
    rw [← h'.1]
  | cons entry rest ih =>
    intro encs demo pending e' d' p' h
    unfold pass2 at h
    simp only [] at h
    split at h
    next => exact Except.noConfusion h
    next => exact ih _ _ _ _ _ _ h
    next ev0 heq =>
      split at h
      next => exact ih _ _ _ _ _ _ h
      next =>
        split at h
        next => rw [ih _ _ _ _ _ _ h, updateFirst_keys]
        next => exact ih _ _ _ _ _ _ h

theorem pass2_meta (entries : List Entry) :
    ∀ (encs : Shells) demo pending encs' demo' pending',
      pass2 entries encs demo pending = .ok (encs', demo', pending') →
      ∀ k, (dictGet? encs' k).map shellMeta
        = (dictGet? encs k).map shellMeta := by
  induction entries with
  | nil =>
    intro encs demo pending e' d' p' h k
    unfold pass2 at h
    injection h with h'
    simp only [Prod.mk.injEq] at h'
    rw [← h'.1]
  | cons entry rest ih =>
    intro encs demo pending e' d' p' h k
    unfold pass2 at h
    simp only [] at h
    split at h
    next => exact Except.noConfusion h
    next => exact ih _ _ _ _ _ _ h k
    next ev0 heq =>
      split at h
      next => exact ih _ _ _ _ _ _ h k
      next =>
        split at h
        next => rw [ih _ _ _ _ _ _ h k, updateFirst_meta]
        next => exact ih _ _ _ _ _ _ h k

theorem dictGet?_none_of_not_mem {α β : Type} [BEq α] [LawfulBEq α]
    (m : List (α × β)) (k : α) (h : k ∉ m.map Prod.fst) :
    dictGet? m k = none := by
  unfold dictGet?
  rw [List.find?_eq_none.mpr]
  · rfl
  · intro p hp hpk
    exact h (List.mem_map.mpr ⟨p, hp, eq_of_beq hpk⟩)

theorem dictGet?_some_mem {α β : Type} [BEq α] (m : List (α × β)) (k : α)
    (v : β) (h : dictGet? m k = some v) : (k, v) ∈ m ∨ ∃ p ∈ m, p.2 = v := by
  unfold dictGet? at h
  cases hf : m.find? (fun p => p.1 == k) with
  | none => rw [hf] at h; exact Option.noConfusion h
  | some p =>
    rw [hf] at h
    injection h with h'
    exact Or.inr ⟨p, List.mem_of_find?_eq_some hf, h'⟩

/-- The per-key metadata of the shells after pass 3 agrees with the
metadata before pass 2: only the event lists change downstream of
pass 1. -/
theorem meta_chain (bundle : List Entry) (encs1 encs2 : Shells)
    (demo : Option Event) (pending : List Event) (demo' : Option Event)
    (pending' : List Event)
    (h2 : pass2 bundle encs1 none [] = .ok (encs2, demo', pending'))
    (k : Option String) :
    ((dictGet? (pass3 pending' encs2 []).1 k).map shellMeta)
      = (dictGet? encs1 k).map shellMeta := by
  obtain ⟨hkeys3, hframe3⟩ :=
    pass3_frame pending' encs2 [] (pass3 pending' encs2 []).1
      (pass3 pending' encs2 []).2 rfl
  have hmeta2 := pass2_meta bundle encs1 none [] encs2 demo' pending' h2 k
  rw [← hmeta2]
  cases hget3 : dictGet? (pass3 pending' encs2 []).1 k with
  | none =>
    have hk2 : dictGet? encs2 k = none := by
      apply dictGet?_none_of_not_mem
      intro hmem
      rw [← hkeys3] at hmem
      obtain ⟨p, hp, hpk⟩ := List.mem_map.mp hmem
      have : dictGet? (pass3 pending' encs2 []).1 k ≠ none := by
        unfold dictGet?
        intro hc
        rw [Option.map_eq_none'] at hc
        rw [List.find?_eq_none] at hc
        exact absurd (beq_iff_eq.mpr hpk) (by simpa using hc p hp)
      exact absurd hget3 this
    rw [hk2]
  | some sh3 =>
    obtain ⟨sh2, ext, hget2, heq, -⟩ := hframe3 k sh3 hget3
    rw [hget2, heq]
    simp [shellMeta]

/-! ## Order lemmas for the sort comparisons -/

theorem charListLe_total : ∀ a b : List Char,
    charListLe a b = true ∨ charListLe b a = true := by
  intro a
  induction a with
  | nil => intro b; exact Or.inl rfl
  | cons c1 r1 ih =>
    intro b
    cases b with
    | nil => exact Or.inr rfl
    | cons c2 r2 =>
      by_cases h : c1 = c2
      · subst h
        unfold charListLe
        rw [if_pos rfl, if_pos rfl]
        exact ih r2
      · unfold charListLe
        rw [if_neg h, if_neg (Ne.symm h)]
        rcases lt_or_gt_of_ne h with hlt | hgt
        · exact Or.inl (decide_eq_true hlt)
        · exact Or.inr (decide_eq_true hgt)

theorem charListLe_trans : ∀ a b c : List Char,
    charListLe a b = true → charListLe b c = true →
    charListLe a c = true := by
  intro a
  induction a with
  | nil => intro b c _ _; rfl
  | cons c1 r1 ih =>
    intro b c hab hbc
    cases b with
    | nil => exact absurd hab (by simp [charListLe])
    | cons c2 r2 =>
      cases c with
      | nil => exact absurd hbc (by simp [charListLe])
      | cons c3 r3 =>
        unfold charListLe at hab hbc ⊢
        by_cases h12 : c1 = c2
        · subst h12
          rw [if_pos rfl] at hab
          by_cases h13 : c1 = c3
          · subst h13
            rw [if_pos rfl] at hbc ⊢
            exact ih r2 r3 hab hbc
          · rw [if_neg h13] at hbc ⊢
            exact hbc
        · rw [if_neg h12] at hab
          by_cases h23 : c2 = c3
          · subst h23
            rw [if_neg h12]
            exact hab
          · rw [if_neg h23] at hbc
            have h13lt : c1 < c3 :=
              lt_trans (of_decide_eq_true hab) (of_decide_eq_true hbc)
            rw [if_neg (ne_of_lt h13lt)]
            exact decide_eq_true h13lt

theorem pyStrLe_total (a b : String) :
    pyStrLe a b = true ∨ pyStrLe b a = true :=
  charListLe_total a.data b.data

theorem pyStrLe_trans (a b c : String) (hab : pyStrLe a b = true)
    (hbc : pyStrLe b c = true) : pyStrLe a c = true :=
  charListLe_trans a.data b.data c.data hab hbc

theorem evSortLe_total (a b : Event) :
    evSortLe a b = true ∨ evSortLe b a = true := by
  unfold evSortLe
  cases ha : a.date.isNone <;> cases hb : b.date.isNone <;>
    simp_all [pyStrLe_total]
  all_goals decide

theorem evSortLe_trans (a b c : Event) (hab : evSortLe a b = true)
    (hbc : evSortLe b c = true) : evSortLe a c = true := by
  unfold evSortLe at hab hbc ⊢
  cases ha : a.date.isNone <;> cases hb : b.date.isNone <;>
      cases hc : c.date.isNone <;> simp_all
  all_goals first
    | decide
    | exact pyStrLe_trans _ _ _ hab hbc

/-- The sorted event list is pairwise ordered by the sort comparison. -/
theorem sortEvents_sorted (l : List Event) :
    (sortEvents l).Pairwise (fun a b => evSortLe a b = true) :=
  @List.sorted_insertionSort Event (fun a b => evSortLe a b = true) _
    ⟨evSortLe_total⟩ ⟨fun _ _ _ => evSortLe_trans _ _ _⟩ l

/-- The sorted event list is a permutation of the input. -/
theorem sortEvents_perm (l : List Event) : (sortEvents l).Perm l :=
  List.perm_insertionSort _ l

/-! ## Event well-formedness: the undated flag mirrors date truthiness -/

/-- The invariant the extractor establishes on every produced event. -/
def evWellFormed (e : Event) : Prop :=
  e.undated = !(truthy e.date)

theorem createEvent_wf (r : Resource) (ev : Event)
    (h : createEventFromResource r = .ok (some ev)) : evWellFormed ev := by
  unfold createEventFromResource at h
  split at h
  next => exact Except.noConfusion h
  next => exact Except.noConfusion h (fun h' => Option.noConfusion h')
  next d c det heq =>
    simp only [] at h
    split at h
    next =>
      injection h with h'
      injection h' with h''
      rw [← h'']
      rfl
    next => exact Except.noConfusion h (fun h' => Option.noConfusion h')

theorem pass2Event_wf (r : Resource) (ev : Event)
    (h : pass2Event r = .ok (some ev)) : evWellFormed ev := by
  unfold pass2Event at h
  split at h
  next => exact Except.noConfusion h
  next => exact Except.noConfusion h (fun h' => Option.noConfusion h')
  next ev0 heq =>
    injection h with h'
    injection h' with h''
    have := createEvent_wf r ev0 heq
    rw [← h'']
    exact this

theorem bigEvents_mem_updateFirst (encs : Shells) (k : Option String)
    (ev e : Event) (h : e ∈ bigEvents (updateFirst encs k ev)) :
    e ∈ bigEvents encs ∨ e = ev := by
  induction encs with
  | nil => exact absurd h (by simp [bigEvents, updateFirst])
  | cons p rest ih =>
    by_cases hk : p.1 == k
    · rw [updateFirst, if_pos hk] at h
      simp only [bigEvents, List.flatMap_cons] at h ⊢
      rcases List.mem_append.mp h with h' | h'
      · rcases List.mem_append.mp h' with h'' | h''
        · exact Or.inl (List.mem_append.mpr (Or.inl h''))
        · exact Or.inr (by simpa using h'')
      · exact Or.inl (List.mem_append.mpr (Or.inr h'))
    · rw [updateFirst, if_neg hk] at h
      simp only [bigEvents, List.flatMap_cons] at h ⊢
      rcases List.mem_append.mp h with h' | h'
      · exact Or.inl (List.mem_append.mpr (Or.inl h'))
      · rcases ih h' with h'' | h''
        · exact Or.inl (List.mem_append.mpr (Or.inr h''))
        · exact Or.inr h''

/-- Pass 2 preserves the event invariant on shells and pending list. -/
theorem pass2_wf (entries : List Entry) :
    ∀ (encs : Shells) demo pending encs' demo' pending',
      pass2 entries encs demo pending = .ok (encs', demo', pending') →
      (∀ e, e ∈ bigEvents encs → evWellFormed e) →
      (∀ e, e ∈ pending → evWellFormed e) →
      (∀ e, e ∈ bigEvents encs' → evWellFormed e)
      ∧ (∀ e, e ∈ pending' → evWellFormed e) := by
  induction entries with
  | nil =>
    intro encs demo pending e' d' p' h hs hp
    unfold pass2 at h
    injection h with h'
    simp only [Prod.mk.injEq] at h'
    obtain ⟨h1, -, h2⟩ := h'
    exact ⟨h1 ▸ hs, h2 ▸ hp⟩
  | cons entry rest ih =>
    intro encs demo pending e' d' p' h hs hp
    unfold pass2 at h
    simp only [] at h
    split at h
    next => exact Except.noConfusion h
    next => exact ih _ _ _ _ _ _ h hs hp
    next ev0 heq =>
      have hwf0 : evWellFormed ev0 := createEvent_wf _ _ heq
      have hwf : evWellFormed { ev0 with encounter_referenced :=
          (if truthy (resolveEncounterRef (entry.resource.getD default))
            = true
          then (resolveEncounterRef (entry.resource.getD default)).getD ""
          else "none") } := hwf0
      split at h
      next => exact ih _ _ _ _ _ _ h hs hp
      next =>
        split at h
        next =>
          refine ih _ _ _ _ _ _ h ?_ hp
          intro e he
          rcases bigEvents_mem_updateFirst _ _ _ _ he with h' | h'
          · exact hs e h'
          · rw [h']
            exact hwf
        next =>
          refine ih _ _ _ _ _ _ h hs ?_
          intro e he
          rcases List.mem_append.mp he with h' | h'
          · exact hp e h'
          · rw [List.mem_singleton.mp h']
            exact hwf

theorem truthy_isNone (o : Option String) (h : truthy o = true) :
    o.isNone = false := by
  cases o with
  | none => exact absurd h (by simp [truthy])
  | some s => rfl

theorem bigEvents_setMap (encs : Shells) (k : Option String)
    (v : EncounterShell) (e : Event)
    (h : e ∈ bigEvents (encs.map (fun p =>
        if p.1 == k then (k, v) else p))) :
    e ∈ bigEvents encs ∨ e ∈ v.events := by
  induction encs with
  | nil => exact absurd h (by simp [bigEvents])
  | cons p rest ih =>
    simp only [List.map_cons, bigEvents, List.flatMap_cons] at h ⊢
    rcases List.mem_append.mp h with h' | h'
    · by_cases hk : p.1 == k
      · rw [if_pos hk] at h'
        exact Or.inr (by simpa using h')
      · rw [if_neg hk] at h'
        exact Or.inl (List.mem_append.mpr (Or.inl h'))
    · rcases ih h' with h'' | h''
      · exact Or.inl (List.mem_append.mpr (Or.inr h''))
      · exact Or.inr h''

theorem bigEvents_dictSet (encs : Shells) (k : Option String)
    (v : EncounterShell) (e : Event)
    (h : e ∈ bigEvents (dictSet encs k v)) :
    e ∈ bigEvents encs ∨ e ∈ v.events := by
  unfold dictSet at h
  split at h
  · exact bigEvents_setMap encs k v e h
  · simp only [bigEvents, List.flatMap_append] at h
    rcases List.mem_append.mp h with h' | h'
    · exact Or.inl h'
    · exact Or.inr (by simpa [bigEvents] using h')

/-- Pass 1 creates every shell with an empty event list, so the shells it
returns carry no events beyond those of the accumulator. -/
theorem pass1_events (entries : List Entry) :
    ∀ (encs : Shells) order s o, pass1 entries encs order = .ok (s, o) →
      ∀ e, e ∈ bigEvents s → e ∈ bigEvents encs := by
  induction entries with
  | nil =>
    intro encs order s o h e he
    unfold pass1 at h
    injection h with h'
    simp only [Prod.mk.injEq] at h'
    exact h'.1 ▸ he
  | cons entry rest ih =>
    intro encs order s o h e he
    unfold pass1 at h
    simp only [] at h
    split at h
    · split at h
      next => exact Except.noConfusion h
      next tc heq =>
        have := ih _ _ _ _ h e he
        rcases bigEvents_dictSet _ _ _ _ this with h' | h'
        · exact h'
        · exact absurd h' (by simp)
    · exact ih _ _ _ _ h e he

/-- After passes 1 and 2 every event held by a shell and every pending
event satisfies the extractor invariant. -/
theorem pipeline_wf (bundle : List Entry) (encs1 : Shells)
    (order : List (Option String)) (encs2 : Shells) (demo : Option Event)
    (pending : List Event)
    (h1 : pass1 bundle [] [] = .ok (encs1, order))
    (h2 : pass2 bundle encs1 none [] = .ok (encs2, demo, pending)) :
    (∀ e, e ∈ bigEvents encs2 → evWellFormed e)
    ∧ (∀ e, e ∈ pending → evWellFormed e) := by
  refine pass2_wf bundle encs1 none [] encs2 demo pending h2 ?_ ?_
  · intro e he
    have := pass1_events bundle [] [] encs1 order h1 e he
    exact absurd this (by simp [bigEvents])
  · intro e he
    exact absurd he (List.not_mem_nil e)

/-- Every event of a pass-3 shell came from a pass-2 shell or from the
pending list. -/
theorem pass3_shell_events_mem (pending : List Event) (encs2 : Shells)
    (k : Option String) (sh3 : EncounterShell)
    (h : dictGet? (pass3 pending encs2 []).1 k = some sh3) :
    ∀ e, e ∈ sh3.events → e ∈ bigEvents encs2 ∨ e ∈ pending := by
  obtain ⟨-, hframe⟩ :=
    pass3_frame pending encs2 [] (pass3 pending encs2 []).1
      (pass3 pending encs2 []).2 rfl
  obtain ⟨sh, ext, hget, hsh, hsub⟩ := hframe k sh3 h
  intro e he
  rw [hsh] at he
  rcases List.mem_append.mp he with h' | h'
  · rcases dictGet?_some_mem encs2 k sh hget with hm | ⟨p, hp, hpv⟩
    · exact Or.inl (List.mem_flatMap.mpr ⟨(k, sh), hm, h'⟩)
    · exact Or.inl (List.mem_flatMap.mpr ⟨p, hp, hpv ▸ h'⟩)
  · exact Or.inr (hsub.mem h')

/-- The dated half of a sorted event list of well-formed events is
pairwise non-decreasing in the date string. -/
theorem datedOf_sorted (l : List Event)
    (hw : ∀ e, e ∈ l → evWellFormed e) :
    (datedOf (sortEvents l)).Pairwise (fun a b =>
      pyStrLe (a.date.getD "") (b.date.getD "") = true) := by
  have hsub : List.Sublist (datedOf (sortEvents l)) (sortEvents l) :=
    List.filter_sublist (sortEvents l)
  have hp := List.Pairwise.sublist hsub (sortEvents_sorted l)
  refine List.Pairwise.imp_of_mem ?_ hp
  intro a b ha hb hab
  have haw : evWellFormed a :=
    hw a ((sortEvents_perm l).mem_iff.mp
      (List.mem_of_mem_filter ha))
  have hbw : evWellFormed b :=
    hw b ((sortEvents_perm l).mem_iff.mp
      (List.mem_of_mem_filter hb))
  have hau : a.undated = false := by
    have := List.of_mem_filter ha
    simpa using this
  have hbu : b.undated = false := by
    have := List.of_mem_filter hb
    simpa using this
  have hat : truthy a.date = true := by
    have := haw
    unfold evWellFormed at this
    rw [hau] at this
    simpa using this.symm
  have hbt : truthy b.date = true := by
    have := hbw
    unfold evWellFormed at this
    rw [hbu] at this
    simpa using this.symm
  unfold evSortLe at hab
  rw [truthy_isNone _ hat, truthy_isNone _ hbt] at hab
  simpa using hab

theorem datedOf_flags (l : List Event) :
    ∀ e, e ∈ datedOf l → e.undated = false := by
  intro e he
  have := List.of_mem_filter he
  simpa using this

theorem undatedOf_flags (l : List Event) :
    ∀ e, e ∈ undatedOf l → e.undated = true := by
  intro e he
  have := List.of_mem_filter he
  simpa using this

theorem finalizeTimeline_encounters (pid : String)
    (sorted_order : List (Option String)) (demo : Option Event)
    (encs3 : Shells) (non_enc : List Event) :
    (finalizeTimeline pid sorted_order demo encs3 non_enc).encounters
      = sorted_order.map (fun eid =>
          summarizeShell ((dictGet? encs3 eid).getD default)) := rfl

theorem finalizeTimeline_nonenc (pid : String)
    (sorted_order : List (Option String)) (demo : Option Event)
    (encs3 : Shells) (non_enc : List Event) :
    Timeline.non_encounter_events
        (finalizeTimeline pid sorted_order demo encs3 non_enc)
      = datedOf (sortEvents non_enc)
    ∧ Timeline.non_encounter_undated_events
        (finalizeTimeline pid sorted_order demo encs3 non_enc)
      = undatedOf (sortEvents non_enc) :=
  ⟨rfl, rfl⟩

theorem summarizeShell_fields (sh : EncounterShell) :
    (summarizeShell sh).events = datedOf (sortEvents sh.events)
    ∧ (summarizeShell sh).undated_events = undatedOf (sortEvents sh.events)
    ∧ (summarizeShell sh).start = sh.start :=
  ⟨rfl, rfl, rfl⟩

/-- The sort key of line 150 as read off an emitted summary: a missing or
empty start sorts as the empty string. -/
def summaryStartKey (s : EncounterSummary) : String :=
  if truthy s.start then s.start.getD "" else ""

/-- The start-sort key read off a final summary agrees with the startKey
of the pass-1 shells at that identifier. -/
theorem summaryKey_eq (bundle : List Entry) (encs1 encs2 : Shells)
    (demo : Option Event) (pending : List Event)
    (h2 : pass2 bundle encs1 none [] = .ok (encs2, demo, pending))
    (eid : Option String) :
    summaryStartKey (summarizeShell
        ((dictGet? (pass3 pending encs2 []).1 eid).getD default))
      = startKey encs1 eid := by
  have hm := meta_chain bundle encs1 encs2 demo pending demo pending h2 eid
  cases h3 : dictGet? (pass3 pending encs2 []).1 eid with
  | none =>
    rw [h3] at hm
    have h1 : dictGet? encs1 eid = none :=
      Option.map_eq_none'.mp hm.symm
    unfold startKey
    rw [h1]
    rfl
  | some sh3 =>
    rw [h3] at hm
    cases h1 : dictGet? encs1 eid with
    | none =>
      rw [h1] at hm
      exact absurd hm (by simp)
    | some sh1 =>
      rw [h1] at hm
      have hm2 : some (shellMeta sh3) = some (shellMeta sh1) := hm
      injection hm2 with hm'
      have hstart : sh3.start = sh1.start := by
        have h4 := congrArg EncounterShell.start hm'
        simpa [shellMeta] using h4
      unfold startKey summaryStartKey
      rw [h1]
      simp only [Option.getD_some, (summarizeShell_fields sh3).2.2, hstart]

/-- A summary built from well-formed events has a clean bucket: only
dated events in its events list, only undated events in its undated list,
and the dated events in ascending date order. -/
theorem summary_bucket_ok (sh : EncounterShell)
    (hw : ∀ e, e ∈ sh.events → evWellFormed e) :
    (∀ e, e ∈ (summarizeShell sh).events → e.undated = false)
    ∧ (∀ e, e ∈ (summarizeShell sh).undated_events → e.undated = true)
    ∧ (summarizeShell sh).events.Pairwise (fun a b =>
        pyStrLe (a.date.getD "") (b.date.getD "") = true) := by
  refine ⟨?_, ?_, ?_⟩
  · rw [(summarizeShell_fields sh).1]
    exact datedOf_flags _
  · rw [(summarizeShell_fields sh).2.1]
    exact undatedOf_flags _
  · rw [(summarizeShell_fields sh).1]
    exact datedOf_sorted sh.events hw

/-- Every event of every shell surviving to the final emission step is
well-formed. -/
theorem encs3_events_wf (bundle : List Entry) (encs1 : Shells)
    (order : List (Option String)) (encs2 : Shells) (demo : Option Event)
    (pending : List Event)
    (h1 : pass1 bundle [] [] = .ok (encs1, order))
    (h2 : pass2 bundle encs1 none [] = .ok (encs2, demo, pending))
    (eid : Option String) :
    ∀ e, e ∈ ((dictGet? (pass3 pending encs2 []).1 eid).getD default).events
      → evWellFormed e := by
  obtain ⟨hwf2, hwfp⟩ :=
    pipeline_wf bundle encs1 order encs2 demo pending h1 h2
  cases h3 : dictGet? (pass3 pending encs2 []).1 eid with
  | none =>
    intro e he
    have hnil : ((none : Option EncounterShell).getD default).events
        = [] := rfl
    rw [hnil] at he
    exact absurd he (List.not_mem_nil e)
  | some sh3 =>
    intro e he
    rcases pass3_shell_events_mem pending encs2 eid sh3 h3 e he
        with h' | h'
    · exact hwf2 e h'
    · exact hwfp e h'

/-- Every event left on the non-encounter list after pass 3 is
well-formed. -/
theorem rem_events_wf (bundle : List Entry) (encs1 : Shells)
    (order : List (Option String)) (encs2 : Shells) (demo : Option Event)
    (pending : List Event)
    (h1 : pass1 bundle [] [] = .ok (encs1, order))
    (h2 : pass2 bundle encs1 none [] = .ok (encs2, demo, pending)) :
    ∀ e, e ∈ (pass3 pending encs2 []).2 → evWellFormed e := by
  obtain ⟨-, hwfp⟩ :=
    pipeline_wf bundle encs1 order encs2 demo pending h1 h2
  intro e he
  rw [pass3_remaining] at he
  simp only [List.nil_append] at he
  exact hwfp e (List.mem_of_mem_filter he)

/-- C4: in every timeline the builder returns, each encounter bucket and
the non-encounter bucket list only dated events (undated flag false) in
the events list and only undated events in the undated list — so within
the bucket all dated events precede all undated ones — the dated events
are in non-decreasing date-string order, and the encounter summaries are
emitted in ascending order of start, where a missing or empty start sorts
as the empty string. -/
theorem timeline_buckets_sorted (bundle : List Entry) (pid : String)
    (t : Timeline) (h : processTimeline bundle pid = .ok t) :
    (∀ s, s ∈ t.encounters →
       (∀ e, e ∈ s.events → e.undated = false)
       ∧ (∀ e, e ∈ s.undated_events → e.undated = true)
       ∧ s.events.Pairwise (fun a b =>
           pyStrLe (a.date.getD "") (b.date.getD "") = true))
    ∧ (∀ e, e ∈ t.non_encounter_events → e.undated = false)
    ∧ (∀ e, e ∈ t.non_encounter_undated_events → e.undated = true)
    ∧ t.non_encounter_events.Pairwise (fun a b =>
        pyStrLe (a.date.getD "") (b.date.getD "") = true)
    ∧ t.encounters.Pairwise (fun s1 s2 =>
        pyStrLe (summaryStartKey s1) (summaryStartKey s2) = true) := by
  obtain ⟨encs1, order, encs2, demo, pending, h1, h2, ht⟩ :=
    processTimeline_ok_elim bundle pid t h
  subst ht
  refine ⟨?_, ?_, ?_, ?_, ?_⟩
  · rw [finalizeTimeline_encounters]
    intro s hs
    obtain ⟨eid, -, hseq⟩ := List.mem_map.mp hs
    rw [← hseq]
    exact summary_bucket_ok _
      (encs3_events_wf bundle encs1 order encs2 demo pending h1 h2 eid)
  · rw [(finalizeTimeline_nonenc pid _ demo _ _).1]
    exact datedOf_flags _
  · rw [(finalizeTimeline_nonenc pid _ demo _ _).2]
    exact undatedOf_flags _
  · rw [(finalizeTimeline_nonenc pid _ demo _ _).1]
    exact datedOf_sorted _
      (rem_events_wf bundle encs1 order encs2 demo pending h1 h2)
  · rw [finalizeTimeline_encounters]
    rw [List.pairwise_map]
    have hsorted := @List.sorted_insertionSort (Option String)
      (fun a b => pyStrLe (startKey encs1 a) (startKey encs1 b) = true) _
      ⟨fun a b => pyStrLe_total _ _⟩
      ⟨fun a b c => pyStrLe_trans _ _ _⟩ order
    refine List.Pairwise.imp ?_ hsorted
    intro a b hab
    rw [summaryKey_eq bundle encs1 encs2 demo pending h2 a,
        summaryKey_eq bundle encs1 encs2 demo pending h2 b]
    exact hab

/-- A two-entry bundle for exercising the bucket-ordering theorem. -/
def c4Bundle : List Entry :=
  [⟨some encE1⟩, ⟨some obsDirect⟩]

/-- The timeline the builder returns on that bundle. -/
def c4Timeline : Timeline :=
  ((processTimeline c4Bundle "p").toOption).getD default

theorem timeline_buckets_sorted_witness :
    processTimeline c4Bundle "p" = .ok c4Timeline
    ∧ List.Pairwise (fun s1 s2 =>
        pyStrLe (summaryStartKey s1) (summaryStartKey s2) = true)
        c4Timeline.encounters :=
  ⟨rfl, (timeline_buckets_sorted c4Bundle "p" c4Timeline rfl).2.2.2.2⟩

/-! ## Dict-sum machinery for the summary totals -/

theorem foldl_ins_of_nodup (l : List (Option String)) :
    ∀ acc : List (Option String), (acc ++ l).Nodup →
      l.foldl (fun acc x => if acc.contains x then acc else acc ++ [x]) acc
        = acc ++ l := by
  induction l with
  | nil =>
    intro acc _
    simp
  | cons x rest ih =>
    intro acc h
    have hx : x ∉ acc := by
      intro hc
      rcases List.nodup_append.mp h with ⟨-, -, hdisj⟩
      exact hdisj hc (List.mem_cons_self x rest)
    have hcont : acc.contains x = false := by
      rw [Bool.eq_false_iff]
      intro hc
      exact hx (List.elem_iff.mp hc)
    rw [List.foldl_cons]
    have hstep : (if acc.contains x = true then acc else acc ++ [x])
        = acc ++ [x] := by
      rw [hcont]
      simp
    rw [hstep]
    have hnd2 : ((acc ++ [x]) ++ rest).Nodup := by
      rw [List.append_assoc]
      exact h
    rw [ih (acc ++ [x]) hnd2, List.append_assoc]
    rfl

theorem firstOccurrences_of_nodup (l : List (Option String))
    (h : l.Nodup) : firstOccurrences l = l := by
  unfold firstOccurrences
  have := foldl_ins_of_nodup l [] (by simpa using h)
  simpa using this

/-- Summing a function of the values over the (distinct) keys of a dict
equals summing it over the entries. -/
theorem sum_over_keys {α β : Type} [BEq α] [LawfulBEq α]
    (m : List (α × β)) (f : β → Nat) (d : β)
    (hnd : (m.map Prod.fst).Nodup) :
    ((m.map Prod.fst).map (fun k => f ((dictGet? m k).getD d))).sum
      = (m.map (fun p => f p.2)).sum := by
  induction m with
  | nil => rfl
  | cons p rest ih =>
    obtain ⟨k0, v0⟩ := p
    have hnotin : k0 ∉ rest.map Prod.fst :=
      (List.nodup_cons.mp (by simpa using hnd)).1
    have hrest : (rest.map Prod.fst).Nodup :=
      (List.nodup_cons.mp (by simpa using hnd)).2
    simp only [List.map_cons, List.sum_cons]
    have h0 : dictGet? ((k0, v0) :: rest) k0 = some v0 := by
      rw [dictGet?, List.find?_cons_of_pos _ (by simp)]
      rfl
    rw [h0]
    have hmap : (rest.map Prod.fst).map
        (fun k => f ((dictGet? ((k0, v0) :: rest) k).getD d))
        = (rest.map Prod.fst).map (fun k => f ((dictGet? rest k).getD d))
        := by
      apply List.map_congr_left
      intro k hk
      have hne2 : ¬((k0 == k) = true) := by
        intro hc
        exact hnotin (by rw [show k0 = k from eq_of_beq hc]; exact hk)
      have hfind : List.find? (fun p => p.1 == k) ((k0, v0) :: rest)
          = List.find? (fun p => p.1 == k) rest :=
        List.find?_cons_of_neg _ hne2
      rw [dictGet?, hfind]
      rfl
    rw [hmap, ih hrest]
    rfl

/-- The key-list may be traversed in any order (it is a permutation of
the dict keys). -/
theorem sum_over_perm_keys {α β : Type} [BEq α] [LawfulBEq α]
    (m : List (α × β)) (f : β → Nat) (d : β) (ks : List α)
    (hperm : ks.Perm (m.map Prod.fst))
    (hnd : (m.map Prod.fst).Nodup) :
    (ks.map (fun k => f ((dictGet? m k).getD d))).sum
      = (m.map (fun p => f p.2)).sum := by
  rw [List.Perm.sum_eq (hperm.map _)]
  exact sum_over_keys m f d hnd

/-- Summing a summary statistic over the emitted summaries equals summing
it over the dict entries, when the emission order is a permutation of the
distinct keys. -/
theorem summary_sum_eq (encs3 : Shells) (ks : List (Option String))
    (hperm : ks.Perm (encs3.map Prod.fst))
    (hnd : (encs3.map Prod.fst).Nodup) (f : EncounterSummary → Nat) :
    ((ks.map (fun eid =>
        summarizeShell ((dictGet? encs3 eid).getD default))).map f).sum
      = (encs3.map (fun p => f (summarizeShell p.2))).sum := by
  rw [List.map_map]
  have := sum_over_perm_keys encs3 (fun sh => f (summarizeShell sh))
    default ks hperm hnd
  simpa [Function.comp_def] using this

theorem sum_map_add_pair (l : Shells) :
    (l.map (fun p => (summarizeShell p.2).dated_event_count
        + (summarizeShell p.2).undated_event_count)).sum
      = (l.map (fun p => (summarizeShell p.2).dated_event_count)).sum
        + (l.map (fun p => (summarizeShell p.2).undated_event_count)).sum
        := by
  induction l with
  | nil => rfl
  | cons p rest ih =>
    simp only [List.map_cons, List.sum_cons, ih]
    omega

/-- The key lists of the three passes all agree with the first
occurrences of the discovered encounter identifiers. -/
theorem keys_chain (bundle : List Entry) (encs1 : Shells)
    (order : List (Option String)) (encs2 : Shells) (demo : Option Event)
    (pending : List Event)
    (h1 : pass1 bundle [] [] = .ok (encs1, order))
    (h2 : pass2 bundle encs1 none [] = .ok (encs2, demo, pending)) :
    ((pass3 pending encs2 []).1).map Prod.fst = encs1.map Prod.fst
    ∧ order = encounterIds bundle
    ∧ encs1.map Prod.fst = firstOccurrences (encounterIds bundle) := by
  obtain ⟨hk1, ho⟩ := pass1_discovery bundle encs1 order h1
  have hk2 := pass2_keys bundle encs1 none [] encs2 demo pending h2
  have hk3 := (pass3_frame pending encs2 [] _ _ rfl).1
  exact ⟨hk3.trans hk2, ho, hk1⟩

theorem finalizeTimeline_demo (pid : String)
    (sorted_order : List (Option String)) (demo : Option Event)
    (encs3 : Shells) (non_enc : List Event) :
    (finalizeTimeline pid sorted_order demo encs3 non_enc).demographics
      = demo := rfl

theorem finalizeTimeline_total_dated (pid : String)
    (sorted_order : List (Option String)) (demo : Option Event)
    (encs3 : Shells) (non_enc : List Event) :
    (finalizeTimeline pid sorted_order demo encs3
        non_enc).summary.total_dated_events
      = (encs3.map (fun p => (summarizeShell p.2).dated_event_count)).sum
        + (datedOf (sortEvents non_enc)).length := rfl

theorem finalizeTimeline_total_undated (pid : String)
    (sorted_order : List (Option String)) (demo : Option Event)
    (encs3 : Shells) (non_enc : List Event) :
    (finalizeTimeline pid sorted_order demo encs3
        non_enc).summary.total_undated_events
      = (encs3.map (fun p => (summarizeShell p.2).undated_event_count)).sum
        + (undatedOf (sortEvents non_enc)).length := rfl

theorem finalizeTimeline_total_events (pid : String)
    (sorted_order : List (Option String)) (demo : Option Event)
    (encs3 : Shells) (non_enc : List Event) :
    (finalizeTimeline pid sorted_order demo encs3
        non_enc).summary.total_events
      = ((encs3.map (fun p =>
            (summarizeShell p.2).dated_event_count)).sum
          + (datedOf (sortEvents non_enc)).length)
        + ((encs3.map (fun p =>
            (summarizeShell p.2).undated_event_count)).sum
          + (undatedOf (sortEvents non_enc)).length)
        + (if demo.isSome then 1 else 0) := rfl

/-! ## C1 -/

/-- C1 counterexample: on a bundle in which the same Encounter id occurs
twice, the encounter summary is emitted once per occurrence of the id in
the discovery order, but the totals are computed once per distinct dict
key — the returned total_events is 1 while the claimed bucketed sum over
the emitted summaries is 2. -/
theorem timeline_totals_counterexample :
    ((processTimeline dupEncBundle "p").toOption.map (fun t =>
      (t.summary.total_events,
        (if t.demographics.isSome then 1 else 0)
          + (t.encounters.map (fun s =>
              s.dated_event_count + s.undated_event_count)).sum
          + t.non_encounter_events.length
          + t.non_encounter_undated_events.length)))
      = some (1, 2)
    ∧ (1 : Nat) ≠ 2 :=
  ⟨rfl, by decide⟩

/-- C1 (amended): when no Encounter id is discovered twice, the totals
are exactly the claimed bucketed sums — total_events is the demographics
indicator plus the dated and undated counts of every emitted encounter
summary plus the lengths of the two non-encounter lists, and
total_dated_events and total_undated_events are the corresponding
one-sided sums. -/
theorem timeline_totals (bundle : List Entry) (pid : String)
    (t : Timeline) (hnd : (encounterIds bundle).Nodup)
    (h : processTimeline bundle pid = .ok t) :
    t.summary.total_events
      = (if t.demographics.isSome then 1 else 0)
        + (t.encounters.map (fun s =>
            s.dated_event_count + s.undated_event_count)).sum
        + t.non_encounter_events.length
        + t.non_encounter_undated_events.length
    ∧ t.summary.total_dated_events
      = (t.encounters.map (fun s => s.dated_event_count)).sum
        + t.non_encounter_events.length
    ∧ t.summary.total_undated_events
      = (t.encounters.map (fun s => s.undated_event_count)).sum
        + t.non_encounter_undated_events.length := by
  obtain ⟨encs1, order, encs2, demo, pending, h1, h2, ht⟩ :=
    processTimeline_ok_elim bundle pid t h
  subst ht
  obtain ⟨hk3, ho, hk1⟩ :=
    keys_chain bundle encs1 order encs2 demo pending h1 h2
  have hkeys : ((pass3 pending encs2 []).1).map Prod.fst
      = encounterIds bundle := by
    rw [hk3, hk1, firstOccurrences_of_nodup _ hnd]
  have hperm : (order.insertionSort (fun a b =>
      pyStrLe (startKey encs1 a) (startKey encs1 b) = true)).Perm
      (((pass3 pending encs2 []).1).map Prod.fst) := by
    rw [hkeys, ← ho]
    exact List.perm_insertionSort _ _
  have hndk : (((pass3 pending encs2 []).1).map Prod.fst).Nodup := by
    rw [hkeys]
    exact hnd
  refine ⟨?_, ?_, ?_⟩
  · rw [finalizeTimeline_total_events, finalizeTimeline_encounters,
        finalizeTimeline_demo,
        (finalizeTimeline_nonenc pid _ demo _ _).1,
        (finalizeTimeline_nonenc pid _ demo _ _).2,
        summary_sum_eq _ _ hperm hndk
          (fun s => s.dated_event_count + s.undated_event_count),
        sum_map_add_pair]
    omega
  · rw [finalizeTimeline_total_dated, finalizeTimeline_encounters,
        (finalizeTimeline_nonenc pid _ demo _ _).1,
        summary_sum_eq _ _ hperm hndk (fun s => s.dated_event_count)]
  · rw [finalizeTimeline_total_undated, finalizeTimeline_encounters,
        (finalizeTimeline_nonenc pid _ demo _ _).2,
        summary_sum_eq _ _ hperm hndk (fun s => s.undated_event_count)]

/-- A duplicate-free bundle for exercising the totals theorem. -/
def c1Bundle : List Entry :=
  [⟨some encE1⟩, ⟨some obsDirect⟩]

/-- The timeline the builder returns on that bundle. -/
def c1Timeline : Timeline :=
  ((processTimeline c1Bundle "p").toOption).getD default

theorem timeline_totals_witness :
    (encounterIds c1Bundle).Nodup
    ∧ c1Timeline.summary.total_events
      = (if c1Timeline.demographics.isSome then 1 else 0)
        + (c1Timeline.encounters.map (fun s =>
            s.dated_event_count + s.undated_event_count)).sum
        + c1Timeline.non_encounter_events.length
        + c1Timeline.non_encounter_undated_events.length :=
  ⟨by decide, (timeline_totals c1Bundle "p" c1Timeline (by decide) rfl).1⟩

/-! ## Multiset-conservation machinery for the bucket partition -/

/-- Splitting a list by a flag and recombining is a permutation. -/
theorem dated_undated_perm (l : List Event) :
    (datedOf l ++ undatedOf l).Perm l := by
  induction l with
  | nil => rfl
  | cons e rest ih =>
    cases he : e.undated with
    | false =>
      have hd : datedOf (e :: rest) = e :: datedOf rest := by
        unfold datedOf
        rw [List.filter_cons_of_pos (by rw [he]; rfl)]
      have hu : undatedOf (e :: rest) = undatedOf rest := by
        unfold undatedOf
        rw [List.filter_cons_of_neg (by rw [he]; exact Bool.false_ne_true)]
      rw [hd, hu, List.cons_append]
      exact ih.cons e
    | true =>
      have hd : datedOf (e :: rest) = datedOf rest := by
        unfold datedOf
        rw [List.filter_cons_of_neg (by rw [he]; exact Bool.false_ne_true)]
      have hu : undatedOf (e :: rest) = e :: undatedOf rest := by
        unfold undatedOf
        rw [List.filter_cons_of_pos (by rw [he])]
      rw [hd, hu]
      exact ((List.perm_middle).trans (ih.cons e))

/-- Permuting the outer list permutes the flattening. -/
theorem perm_flatMap {α β : Type} (f : α → List β) {l₁ l₂ : List α}
    (h : l₁.Perm l₂) : (l₁.flatMap f).Perm (l₂.flatMap f) := by
  induction h with
  | nil => exact List.Perm.refl _
  | cons x h ih =>
    simp only [List.flatMap_cons]
    exact ih.append_left (f x)
  | swap x y l =>
    simp only [List.flatMap_cons, ← List.append_assoc]
    exact (List.perm_append_comm).append_right (l.flatMap f)
  | trans h1 h2 ih1 ih2 => exact ih1.trans ih2

/-- Pointwise-permuted flattenings are permuted. -/
theorem flatMap_congr_perm {α β : Type} (f g : α → List β) (l : List α)
    (h : ∀ x, x ∈ l → (f x).Perm (g x)) :
    (l.flatMap f).Perm (l.flatMap g) := by
  induction l with
  | nil => exact List.Perm.refl _
  | cons x rest ih =>
    simp only [List.flatMap_cons]
    exact (h x (List.mem_cons_self x rest)).append
      (ih (fun y hy => h y (List.mem_cons_of_mem x hy)))

theorem flatMap_congr_left {α β : Type} (f g : α → List β) (l : List α)
    (h : ∀ x, x ∈ l → f x = g x) : l.flatMap f = l.flatMap g := by
  induction l with
  | nil => rfl
  | cons x rest ih =>
    simp only [List.flatMap_cons]
    rw [h x (List.mem_cons_self x rest),
        ih (fun y hy => h y (List.mem_cons_of_mem x hy))]

/-- Flattening the per-key event lists over the distinct keys of the
shells dict recovers all held events. -/
theorem shellEvents_over_keys (m : Shells)
    (hnd : (m.map Prod.fst).Nodup) :
    (m.map Prod.fst).flatMap (fun k => shellEvents m k) = bigEvents m := by
  induction m with
  | nil => rfl
  | cons p rest ih =>
    obtain ⟨k0, v0⟩ := p
    have hnotin : k0 ∉ rest.map Prod.fst :=
      (List.nodup_cons.mp (by simpa using hnd)).1
    have hrest : (rest.map Prod.fst).Nodup :=
      (List.nodup_cons.mp (by simpa using hnd)).2
    simp only [List.map_cons, List.flatMap_cons, bigEvents]
    have h0 : shellEvents ((k0, v0) :: rest) k0 = v0.events := by
      unfold shellEvents
      rw [dictGet?, List.find?_cons_of_pos _ (by simp)]
      rfl
    have hmap : (rest.map Prod.fst).flatMap
        (fun k => shellEvents ((k0, v0) :: rest) k)
        = (rest.map Prod.fst).flatMap (fun k => shellEvents rest k) := by
      apply flatMap_congr_left
      intro k hk
      have hne2 : ¬((k0 == k) = true) := by
        intro hc
        exact hnotin (by rw [show k0 = k from eq_of_beq hc]; exact hk)
      have hfind : List.find? (fun p => p.1 == k) ((k0, v0) :: rest)
          = List.find? (fun p => p.1 == k) rest :=
        List.find?_cons_of_neg _ hne2
      unfold shellEvents
      rw [dictGet?, hfind]
      rfl
    rw [h0, hmap, ih hrest]
    rfl

theorem dictContains_rest (p : Option String × EncounterShell)
    (rest : Shells) (k : Option String)
    (hk : dictContains (p :: rest) k = true) (h : ¬((p.1 == k) = true)) :
    dictContains rest k = true := by
  unfold dictContains at hk ⊢
  rw [List.any_cons] at hk
  cases hor : (p.1 == k) with
  | true => exact absurd hor h
  | false =>
    rw [hor] at hk
    simpa using hk

theorem updateFirst_count (encs : Shells) (k : Option String) (ev : Event)
    (hk : dictContains encs k = true) (a : Event) :
    (bigEvents (updateFirst encs k ev)).count a
      = (bigEvents encs ++ [ev]).count a := by
  induction encs with
  | nil => exact absurd hk (by simp [dictContains])
  | cons p rest ih =>
    by_cases h : p.1 == k
    · rw [updateFirst, if_pos h]
      simp only [bigEvents, List.flatMap_cons]
      simp only [List.count_append]
      omega
    · rw [updateFirst, if_neg h]
      have hk2 : dictContains rest k = true := dictContains_rest p rest k hk h
      simp only [bigEvents, List.flatMap_cons]
      simp only [List.count_append]
      have h1 := ih hk2
      simp only [bigEvents, List.count_append] at h1
      omega

theorem assignByWindow_count (encs : Shells) (ev : Event) (a : Event) :
    ∀ encs', assignByWindow encs ev = some encs' →
      (bigEvents encs').count a = (bigEvents encs ++ [ev]).count a := by
  induction encs with
  | nil =>
    intro encs' h
    exact Option.noConfusion h
  | cons p rest ih =>
    intro encs' h
    obtain ⟨k0, sh0⟩ := p
    unfold assignByWindow at h
    split at h
    · injection h with h'
      rw [← h']
      simp only [bigEvents, List.flatMap_cons, List.count_append]
      omega
    · split at h
      next rest2 heq =>
        injection h with h'
        rw [← h']
        simp only [bigEvents, List.flatMap_cons, List.count_append]
        have h1 := ih rest2 heq
        simp only [bigEvents, List.count_append] at h1
        omega
      next => exact Option.noConfusion h

theorem pass3_count (pending : List Event) :
    ∀ (encs : Shells) rem encs' rem',
      pass3 pending encs rem = (encs', rem') → ∀ a : Event,
      (bigEvents encs').count a + rem'.count a
        = (bigEvents encs).count a + rem.count a + pending.count a := by
  induction pending with
  | nil =>
    intro encs rem encs' rem' h a
    unfold pass3 at h
    injection h with h1 h2
    rw [← h1, ← h2]
    simp
  | cons ev rest ih =>
    intro encs rem encs' rem' h a
    unfold pass3 at h
    split at h
    · split at h
      next encs2 heq =>
        have h1 := ih _ _ _ _ h a
        have h2 := assignByWindow_count encs ev a encs2 heq
        simp only [List.count_append, List.count_cons, List.count_nil]
          at h1 h2 ⊢
        omega
      next =>
        have h1 := ih _ _ _ _ h a
        simp only [List.count_append, List.count_cons, List.count_nil]
          at h1 ⊢
        omega
    · have h1 := ih _ _ _ _ h a
      simp only [List.count_append, List.count_cons, List.count_nil]
        at h1 ⊢
      omega

theorem bigEvents_pass1_nil (bundle : List Entry) (encs1 : Shells)
    (order : List (Option String))
    (h : pass1 bundle [] [] = .ok (encs1, order)) :
    bigEvents encs1 = [] := by
  rw [List.eq_nil_iff_forall_not_mem]
  intro e he
  have := pass1_events bundle [] [] encs1 order h e he
  simp [bigEvents] at this

/-- Pass 2 conserves the events: the shells and pending list after it
hold exactly the events they held before plus the finalized non-Patient
event stream of the processed entries. -/
theorem pass2_count (entries : List Entry) :
    ∀ (encs : Shells) demo pending encs' demo' pending' E,
      pass2 entries encs demo pending = .ok (encs', demo', pending') →
      eventsFromBundle keepAll entries = .ok E → ∀ a : Event,
      (bigEvents encs').count a + pending'.count a
        = (bigEvents encs).count a + pending.count a + E.count a := by
  induction entries with
  | nil =>
    intro encs demo pending e' d' p' E h hE a
    unfold pass2 at h
    unfold eventsFromBundle at hE
    injection h with h'
    injection hE with hE'
    simp only [Prod.mk.injEq] at h'
    obtain ⟨h1, -, h2⟩ := h'
    rw [← h1, ← h2, ← hE']
    simp
  | cons entry rest ih =>
    intro encs demo pending e' d' p' E h hE a
    unfold pass2 at h
    unfold eventsFromBundle at hE
    simp only [] at h hE
    cases heq : createEventFromResource (entry.resource.getD default) with
    | error e =>
      rw [heq] at h
      simp only [] at h
      exact Except.noConfusion h
    | ok oev =>
      cases oev with
      | none =>
        rw [heq] at h
        simp only [] at h
        have hpe : pass2Event (entry.resource.getD default) = .ok none := by
          unfold pass2Event
          rw [heq]
        rw [hpe] at hE
        simp only [] at hE
        exact ih _ _ _ _ _ _ _ h hE a
      | some ev0 =>
        rw [heq] at h
        simp only [] at h
        have hpe : pass2Event (entry.resource.getD default)
            = .ok (some { ev0 with encounter_referenced :=
              (if truthy (resolveEncounterRef (entry.resource.getD default))
              then (resolveEncounterRef (entry.resource.getD default)).getD ""
              else "none") }) := by
          unfold pass2Event
          rw [heq]
        rw [hpe] at hE
        simp only [] at hE
        split at hE
        next => exact Except.noConfusion hE
        next tail htail =>
          injection hE with hE2
          split at h
          next hpat =>
            rw [if_pos hpat] at hE2
            have h2 := ih _ _ _ _ _ _ _ h htail a
            rw [← hE2]
            exact h2
          next hpat =>
            split at h
            next hcond =>
              rw [if_neg hpat,
                  if_pos (show keepAll (entry.resource.getD default) = true
                    from rfl)] at hE2
              have h2 := ih _ _ _ _ _ _ _ h htail a
              have hcontains : dictContains encs
                  (some ((resolveEncounterRef
                    (entry.resource.getD default)).getD "")) = true :=
                by
                  have hc2 := hcond
                  rw [Bool.and_eq_true] at hc2
                  exact hc2.2
              have h3 := updateFirst_count encs
                (some ((resolveEncounterRef
                  (entry.resource.getD default)).getD ""))
                { ev0 with encounter_referenced :=
                  (if truthy (resolveEncounterRef
                      (entry.resource.getD default))
                  then (resolveEncounterRef
                      (entry.resource.getD default)).getD ""
                  else "none") }
                hcontains a
              rw [← hE2]
              simp only [List.count_append, List.count_cons, List.count_nil]
                at h2 h3 ⊢
              omega
            next hcond =>
              rw [if_neg hpat,
                  if_pos (show keepAll (entry.resource.getD default) = true
                    from rfl)] at hE2
              have h2 := ih _ _ _ _ _ _ _ h htail a
              rw [← hE2]
              simp only [List.count_append, List.count_cons, List.count_nil]
                at h2 ⊢
              omega

theorem dictGet?_spec {α β : Type} [BEq α] [LawfulBEq α]
    (m : List (α × β)) (k : α) (v : β) (h : dictGet? m k = some v) :
    ∃ p, p ∈ m ∧ p.1 = k ∧ p.2 = v := by
  unfold dictGet? at h
  cases hf : m.find? (fun p => p.1 == k) with
  | none =>
    rw [hf] at h
    exact Option.noConfusion h
  | some p =>
    rw [hf] at h
    injection h with h'
    refine ⟨p, List.mem_of_find?_eq_some hf, ?_, h'⟩
    have := List.find?_some hf
    exact eq_of_beq (by simpa using this)

theorem dictGet?_isSome_of_mem {α β : Type} [BEq α] [LawfulBEq α]
    (m : List (α × β)) (k : α) (h : k ∈ m.map Prod.fst) :
    ∃ v, dictGet? m k = some v := by
  cases hf : dictGet? m k with
  | some v => exact ⟨v, rfl⟩
  | none =>
    exfalso
    obtain ⟨p, hp, hpk⟩ := List.mem_map.mp h
    unfold dictGet? at hf
    rw [Option.map_eq_none'] at hf
    exact (List.find?_eq_none.mp hf p hp) (beq_iff_eq.mpr hpk)

theorem entries_of_dictSet {α β : Type} [BEq α] (m : List (α × β))
    (k : α) (v : β) (p : α × β) (h : p ∈ dictSet m k v) :
    p ∈ m ∨ p = (k, v) := by
  unfold dictSet at h
  split at h
  · obtain ⟨q, hq, he⟩ := List.mem_map.mp h
    by_cases hqk : q.1 == k
    · rw [if_pos hqk] at he
      exact Or.inr he.symm
    · rw [if_neg hqk] at he
      exact Or.inl (he ▸ hq)
  · rcases List.mem_append.mp h with h' | h'
    · exact Or.inl h'
    · exact Or.inr (List.mem_singleton.mp h')

/-- Every shell pass 1 stores has its id field equal to its dict key. -/
theorem pass1_id_inv (entries : List Entry) :
    ∀ (encs : Shells) order s o, pass1 entries encs order = .ok (s, o) →
      (∀ p : Option String × EncounterShell, p ∈ encs → p.2.id = p.1) →
      ∀ p : Option String × EncounterShell, p ∈ s → p.2.id = p.1 := by
  induction entries with
  | nil =>
    intro encs order s o h hinv p hp
    unfold pass1 at h
    injection h with h'
    simp only [Prod.mk.injEq] at h'
    exact hinv p (h'.1 ▸ hp)
  | cons entry rest ih =>
    intro encs order s o h hinv p hp
    unfold pass1 at h
    simp only [] at h
    split at h
    · split at h
      next => exact Except.noConfusion h
      next tc heq =>
        refine ih _ _ _ _ h ?_ p hp
        intro q hq
        rcases entries_of_dictSet _ _ _ q hq with h' | h'
        · exact hinv q h'
        · rw [h']
    · exact ih _ _ _ _ h hinv p hp

theorem pass1_id (bundle : List Entry) (encs1 : Shells)
    (order : List (Option String))
    (h : pass1 bundle [] [] = .ok (encs1, order)) :
    ∀ k sh, dictGet? encs1 k = some sh → sh.id = k := by
  intro k sh hget
  obtain ⟨p, hp, hk, hv⟩ := dictGet?_spec encs1 k sh hget
  have := pass1_id_inv bundle [] [] encs1 order h
    (fun q hq => absurd hq (List.not_mem_nil q)) p hp
  rw [← hv, this, hk]

theorem dictContains_updateFirst (encs : Shells) (k k' : Option String)
    (ev : Event) :
    dictContains (updateFirst encs k ev) k' = dictContains encs k' := by
  rw [dictContains_eq_contains, dictContains_eq_contains,
      updateFirst_keys]

theorem dictGet?_updateFirst_self (encs : Shells) (k : Option String)
    (ev : Event) (hk : dictContains encs k = true) :
    dictGet? (updateFirst encs k ev) k
      = (dictGet? encs k).map
          (fun sh => { sh with events := sh.events ++ [ev] }) := by
  induction encs with
  | nil => exact absurd hk (by simp [dictContains])
  | cons p rest ih =>
    by_cases h : p.1 == k
    · rw [updateFirst, if_pos h]
      rw [dictGet?, dictGet?,
          List.find?_cons_of_pos _ (by simpa using h),
          List.find?_cons_of_pos _ (by simpa using h)]
      rfl
    · rw [updateFirst, if_neg h]
      have hk2 : dictContains rest k = true := dictContains_rest p rest k hk h
      have hf1 : List.find? (fun q => q.1 == k) (p :: updateFirst rest k ev)
          = List.find? (fun q => q.1 == k) (updateFirst rest k ev) :=
        List.find?_cons_of_neg _ h
      have hf2 : List.find? (fun q => q.1 == k) (p :: rest)
          = List.find? (fun q => q.1 == k) rest :=
        List.find?_cons_of_neg _ h
      rw [dictGet?, dictGet?, hf1, hf2]
      exact ih hk2

theorem dictGet?_updateFirst_other (encs : Shells) (k k' : Option String)
    (ev : Event) (hne : k' ≠ k) :
    dictGet? (updateFirst encs k ev) k' = dictGet? encs k' := by
  induction encs with
  | nil => rfl
  | cons p rest ih =>
    by_cases h : p.1 == k
    · rw [updateFirst, if_pos h]
      have hp1 : p.1 = k := eq_of_beq h
      have hne2 : ¬((p.1 == k') = true) := by
        intro hc
        exact hne (hp1 ▸ eq_of_beq hc).symm
      have hf1 : List.find? (fun q => q.1 == k')
          ((p.1, { p.2 with events := p.2.events ++ [ev] }) :: rest)
          = List.find? (fun q => q.1 == k') rest :=
        List.find?_cons_of_neg _ (by simpa using hne2)
      have hf2 : List.find? (fun q => q.1 == k') (p :: rest)
          = List.find? (fun q => q.1 == k') rest :=
        List.find?_cons_of_neg _ hne2
      rw [dictGet?, dictGet?, hf1, hf2]
    · rw [updateFirst, if_neg h]
      by_cases h' : p.1 == k'
      · have hf1 : List.find? (fun q => q.1 == k')
            (p :: updateFirst rest k ev) = some p :=
          List.find?_cons_of_pos _ h'
        have hf2 : List.find? (fun q => q.1 == k') (p :: rest) = some p :=
          List.find?_cons_of_pos _ h'
        rw [dictGet?, dictGet?, hf1, hf2]
      · have hf1 : List.find? (fun q => q.1 == k')
            (p :: updateFirst rest k ev)
            = List.find? (fun q => q.1 == k') (updateFirst rest k ev) :=
          List.find?_cons_of_neg _ h'
        have hf2 : List.find? (fun q => q.1 == k') (p :: rest)
            = List.find? (fun q => q.1 == k') rest :=
          List.find?_cons_of_neg _ h'
        rw [dictGet?, dictGet?, hf1, hf2]
        exact ih

theorem shellEvents_updateFirst_self (encs : Shells) (k : Option String)
    (ev : Event) (hk : dictContains encs k = true) :
    shellEvents (updateFirst encs k ev) k = shellEvents encs k ++ [ev] := by
  unfold shellEvents
  rw [dictGet?_updateFirst_self encs k ev hk]
  obtain ⟨sh, hsh⟩ := dictGet?_isSome_of_mem encs k
    ((dictContains_iff encs k).mp hk)
  rw [hsh]
  rfl

theorem shellEvents_updateFirst_other (encs : Shells) (k k' : Option String)
    (ev : Event) (hne : k' ≠ k) :
    shellEvents (updateFirst encs k ev) k' = shellEvents encs k' := by
  unfold shellEvents
  rw [dictGet?_updateFirst_other encs k k' ev hne]

/-- Pass 2 appends to the shell under each pre-existing key exactly the
finalized events of the resources whose resolved reference names that
key. -/
theorem pass2_shell_spec (entries : List Entry) :
    ∀ (encs : Shells) demo pending encs' demo' pending',
      pass2 entries encs demo pending = .ok (encs', demo', pending') →
      ∀ k, dictContains encs k = true →
      ∃ L, eventsFromBundle (directTo k) entries = .ok L
        ∧ shellEvents encs' k = shellEvents encs k ++ L := by
  induction entries with
  | nil =>
    intro encs demo pending e' d' p' h k hk
    unfold pass2 at h
    injection h with h'
    simp only [Prod.mk.injEq] at h'
    exact ⟨[], rfl, by rw [← h'.1, List.append_nil]⟩
  | cons entry rest ih =>
    intro encs demo pending e' d' p' h k hk
    unfold pass2 at h
    simp only [] at h
    cases heq : createEventFromResource (entry.resource.getD default) with
    | error e =>
      rw [heq] at h
      simp only [] at h
      exact Except.noConfusion h
    | ok oev =>
      cases oev with
      | none =>
        rw [heq] at h
        simp only [] at h
        obtain ⟨L, hL, hsh⟩ := ih _ _ _ _ _ _ h k hk
        have hpe : pass2Event (entry.resource.getD default) = .ok none := by
          unfold pass2Event
          rw [heq]
        have hEF : eventsFromBundle (directTo k) (entry :: rest)
            = .ok L := by
          unfold eventsFromBundle
          simp only []
          rw [hpe]
          simp only []
          exact hL
        exact ⟨L, hEF, hsh⟩
      | some ev0 =>
        rw [heq] at h
        simp only [] at h
        have hpe : pass2Event (entry.resource.getD default)
            = .ok (some { ev0 with encounter_referenced :=
              (if truthy (resolveEncounterRef (entry.resource.getD default))
              then (resolveEncounterRef (entry.resource.getD default)).getD ""
              else "none") }) := by
          unfold pass2Event
          rw [heq]
        split at h
        next hpat =>
          obtain ⟨L, hL, hsh⟩ := ih _ _ _ _ _ _ h k hk
          have hEF : eventsFromBundle (directTo k) (entry :: rest)
              = .ok L := by
            unfold eventsFromBundle
            simp only []
            rw [hpe]
            simp only []
            rw [hL]
            simp only []
            rw [if_pos hpat]
          exact ⟨L, hEF, hsh⟩
        next hpat =>
          split at h
          next hcond =>
            have ht : truthy (resolveEncounterRef
                (entry.resource.getD default)) = true := by
              have hc2 := hcond
              rw [Bool.and_eq_true] at hc2
              exact hc2.1
            have hk2 : dictContains (updateFirst encs
                (some ((resolveEncounterRef
                  (entry.resource.getD default)).getD ""))
                { ev0 with encounter_referenced :=
                  (if truthy (resolveEncounterRef
                      (entry.resource.getD default))
                  then (resolveEncounterRef
                      (entry.resource.getD default)).getD ""
                  else "none") }) k = true := by
              rw [dictContains_updateFirst]
              exact hk
            obtain ⟨L, hL, hsh⟩ := ih _ _ _ _ _ _ h k hk2
            by_cases hkk : (some ((resolveEncounterRef
                (entry.resource.getD default)).getD "")) = k
            · have hdt : directTo k (entry.resource.getD default) = true := by
                unfold directTo
                rw [ht, hkk]
                simp
              have hEF : eventsFromBundle (directTo k) (entry :: rest)
                  = .ok ({ ev0 with encounter_referenced :=
                    (if truthy (resolveEncounterRef
                        (entry.resource.getD default))
                    then (resolveEncounterRef
                        (entry.resource.getD default)).getD ""
                    else "none") } :: L) := by
                unfold eventsFromBundle
                simp only []
                rw [hpe]
                simp only []
                rw [hL]
                simp only []
                rw [if_neg hpat, if_pos hdt]
              refine ⟨_, hEF, ?_⟩
              rw [hsh, hkk, shellEvents_updateFirst_self encs k _ hk,
                  List.append_assoc]
              rfl
            · have hdt : directTo k (entry.resource.getD default) = false := by
                unfold directTo
                rw [ht]
                have : ((some ((resolveEncounterRef
                    (entry.resource.getD default)).getD "")
                    : Option String) == k) = false := by
                  rw [beq_eq_false_iff_ne]
                  exact hkk
                rw [this]
                rfl
              have hEF : eventsFromBundle (directTo k) (entry :: rest)
                  = .ok L := by
                unfold eventsFromBundle
                simp only []
                rw [hpe]
                simp only []
                rw [hL]
                simp only []
                rw [if_neg hpat, if_neg (by rw [hdt]; exact
                  Bool.false_ne_true)]
              refine ⟨L, hEF, ?_⟩
              rw [hsh, shellEvents_updateFirst_other encs _ k _
                (fun hc => hkk hc.symm)]
          next hcond =>
            obtain ⟨L, hL, hsh⟩ := ih _ _ _ _ _ _ h k hk
            have hdt : directTo k (entry.resource.getD default) = false := by
              unfold directTo
              cases ht : truthy (resolveEncounterRef
                  (entry.resource.getD default)) with
              | false => rfl
              | true =>
                cases hbk : ((some ((resolveEncounterRef
                    (entry.resource.getD default)).getD "")
                    : Option String) == k) with
                | false => rfl
                | true =>
                  exfalso
                  apply hcond
                  rw [ht, eq_of_beq hbk]
                  simpa using hk
            have hEF : eventsFromBundle (directTo k) (entry :: rest)
                = .ok L := by
              unfold eventsFromBundle
              simp only []
              rw [hpe]
              simp only []
              rw [hL]
              simp only []
              rw [if_neg hpat, if_neg (by rw [hdt]; exact
                Bool.false_ne_true)]
            exact ⟨L, hEF, hsh⟩

/-- Pass 2 appends to the pending list exactly the finalized non-Patient
events of the resources with no truthy resolved reference to a known
encounter key. -/
theorem pass2_pending_spec (entries : List Entry) :
    ∀ (encs : Shells) demo pending encs' demo' pending',
      pass2 entries encs demo pending = .ok (encs', demo', pending') →
      ∃ P, eventsFromBundle (toPending (encs.map Prod.fst)) entries = .ok P
        ∧ pending' = pending ++ P := by
  induction entries with
  | nil =>
    intro encs demo pending e' d' p' h
    unfold pass2 at h
    injection h with h'
    simp only [Prod.mk.injEq] at h'
    exact ⟨[], rfl, by rw [← h'.2.2, List.append_nil]⟩
  | cons entry rest ih =>
    intro encs demo pending e' d' p' h
    unfold pass2 at h
    simp only [] at h
    cases heq : createEventFromResource (entry.resource.getD default) with
    | error e =>
      rw [heq] at h
      simp only [] at h
      exact Except.noConfusion h
    | ok oev =>
      cases oev with
      | none =>
        rw [heq] at h
        simp only [] at h
        obtain ⟨P, hP, hpend⟩ := ih _ _ _ _ _ _ h
        have hpe : pass2Event (entry.resource.getD default) = .ok none := by
          unfold pass2Event
          rw [heq]
        have hEF : eventsFromBundle (toPending (encs.map Prod.fst))
            (entry :: rest) = .ok P := by
          unfold eventsFromBundle
          simp only []
          rw [hpe]
          simp only []
          exact hP
        exact ⟨P, hEF, hpend⟩
      | some ev0 =>
        rw [heq] at h
        simp only [] at h
        have hpe : pass2Event (entry.resource.getD default)
            = .ok (some { ev0 with encounter_referenced :=
              (if truthy (resolveEncounterRef (entry.resource.getD default))
              then (resolveEncounterRef (entry.resource.getD default)).getD ""
              else "none") }) := by
          unfold pass2Event
          rw [heq]
        split at h
        next hpat =>
          obtain ⟨P, hP, hpend⟩ := ih _ _ _ _ _ _ h
          have hEF : eventsFromBundle (toPending (encs.map Prod.fst))
              (entry :: rest) = .ok P := by
            unfold eventsFromBundle
            simp only []
            rw [hpe]
            simp only []
            rw [hP]
            simp only []
            rw [if_pos hpat]
          exact ⟨P, hEF, hpend⟩
        next hpat =>
          split at h
          next hcond =>
            obtain ⟨P, hP, hpend⟩ := ih _ _ _ _ _ _ h
            rw [updateFirst_keys] at hP
            have htp : toPending (encs.map Prod.fst)
                (entry.resource.getD default) = false := by
              unfold toPending
              have hc2 := hcond
              rw [Bool.and_eq_true] at hc2
              rw [hc2.1]
              rw [dictContains_eq_contains] at hc2
              rw [hc2.2]
              rfl
            have hEF : eventsFromBundle (toPending (encs.map Prod.fst))
                (entry :: rest) = .ok P := by
              unfold eventsFromBundle
              simp only []
              rw [hpe]
              simp only []
              rw [hP]
              simp only []
              rw [if_neg hpat, if_neg (by rw [htp]; exact
                Bool.false_ne_true)]
            exact ⟨P, hEF, hpend⟩
          next hcond =>
            obtain ⟨P, hP, hpend⟩ := ih _ _ _ _ _ _ h
            have htp : toPending (encs.map Prod.fst)
                (entry.resource.getD default) = true := by
              unfold toPending
              have hc2 : (truthy (resolveEncounterRef
                  (entry.resource.getD default)) &&
                  dictContains encs (some ((resolveEncounterRef
                    (entry.resource.getD default)).getD ""))) = false :=
                Bool.eq_false_iff.mpr hcond
              rw [dictContains_eq_contains] at hc2
              rw [hc2]
              rfl
            have hEF : eventsFromBundle (toPending (encs.map Prod.fst))
                (entry :: rest)
                = .ok ({ ev0 with encounter_referenced :=
                  (if truthy (resolveEncounterRef
                      (entry.resource.getD default))
                  then (resolveEncounterRef
                      (entry.resource.getD default)).getD ""
                  else "none") } :: P) := by
              unfold eventsFromBundle
              simp only []
              rw [hpe]
              simp only []
              rw [hP]
              simp only []
              rw [if_neg hpat, if_pos htp]
            refine ⟨_, hEF, ?_⟩
            rw [hpend, List.append_assoc]
            rfl

theorem flatMap_of_map {α β γ : Type} (f : α → β) (g : β → List γ)
    (l : List α) :
    (l.map f).flatMap g = l.flatMap (fun x => g (f x)) := by
  induction l with
  | nil => rfl
  | cons x rest ih => simp only [List.map_cons, List.flatMap_cons, ih]

theorem shellEvents_getD (m : Shells) (k : Option String) :
    ((dictGet? m k).getD default).events = shellEvents m k := by
  unfold shellEvents
  cases dictGet? m k <;> rfl

theorem shellEvents_encs1_nil (bundle : List Entry) (encs1 : Shells)
    (order : List (Option String))
    (h : pass1 bundle [] [] = .ok (encs1, order)) (eid : Option String) :
    shellEvents encs1 eid = [] := by
  have hnil := bigEvents_pass1_nil bundle encs1 order h
  unfold shellEvents
  cases hg : dictGet? encs1 eid with
  | none => rfl
  | some sh =>
    obtain ⟨p, hp, -, hv⟩ := dictGet?_spec encs1 eid sh hg
    have hev : sh.events = [] := by
      rw [List.eq_nil_iff_forall_not_mem]
      intro e he
      have : e ∈ bigEvents encs1 :=
        List.mem_flatMap.mpr ⟨p, hp, hv ▸ he⟩
      rw [hnil] at this
      exact List.not_mem_nil e this
    simp [hev]

/-- C2 (amended): when no Encounter id occurs twice, the emitted buckets
are an exact partition of the extracted event stream — the concatenation
of every encounter bucket and the two non-encounter lists is a
permutation of the finalized non-Patient events of the bundle (each
produced event is bucketed exactly once, never dropped); every discovered
encounter id has a summary carrying that id whose bucket contains, as a
sub-multiset, all events whose resolved reference names that id; and the
non-encounter lists are a sub-multiset of the events with no truthy
resolved reference to a known encounter id. -/
theorem bucket_partition (bundle : List Entry) (pid : String)
    (t : Timeline) (E : List Event)
    (hnd : (encounterIds bundle).Nodup)
    (h : processTimeline bundle pid = .ok t)
    (hE : eventsFromBundle keepAll bundle = .ok E) :
    (t.encounters.flatMap (fun s => s.events ++ s.undated_events)
      ++ t.non_encounter_events ++ t.non_encounter_undated_events).Perm E
    ∧ (∀ eid, eid ∈ encounterIds bundle →
        ∃ L s, eventsFromBundle (directTo eid) bundle = .ok L
          ∧ s ∈ t.encounters ∧ s.encounter_id = eid
          ∧ L.Subperm (s.events ++ s.undated_events))
    ∧ (∃ P, eventsFromBundle (toPending (encounterIds bundle)) bundle
          = .ok P
        ∧ (t.non_encounter_events
            ++ t.non_encounter_undated_events).Subperm P) := by
  obtain ⟨encs1, order, encs2, demo, pending, h1, h2, ht⟩ :=
    processTimeline_ok_elim bundle pid t h
  subst ht
  obtain ⟨hk3, ho, hk1⟩ :=
    keys_chain bundle encs1 order encs2 demo pending h1 h2
  have hkeys3 : ((pass3 pending encs2 []).1).map Prod.fst
      = encounterIds bundle := by
    rw [hk3, hk1, firstOccurrences_of_nodup _ hnd]
  have hkeys1 : encs1.map Prod.fst = encounterIds bundle := by
    rw [hk1, firstOccurrences_of_nodup _ hnd]
  have hndk3 : (((pass3 pending encs2 []).1).map Prod.fst).Nodup := by
    rw [hkeys3]
    exact hnd
  have hps : (order.insertionSort (fun a b =>
      pyStrLe (startKey encs1 a) (startKey encs1 b) = true)).Perm
      (((pass3 pending encs2 []).1).map Prod.fst) := by
    rw [hkeys3, ← ho]
    exact List.perm_insertionSort _ _
  refine ⟨?_, ?_, ?_⟩
  · rw [finalizeTimeline_encounters,
        (finalizeTimeline_nonenc pid _ demo _ _).1,
        (finalizeTimeline_nonenc pid _ demo _ _).2]
    have hbuck : ((order.insertionSort (fun a b =>
        pyStrLe (startKey encs1 a) (startKey encs1 b) = true)).map
          (fun eid => summarizeShell
            ((dictGet? (pass3 pending encs2 []).1 eid).getD
              default))).flatMap
          (fun s => s.events ++ s.undated_events)
        = (order.insertionSort (fun a b =>
            pyStrLe (startKey encs1 a) (startKey encs1 b) = true)).flatMap
          (fun eid =>
            datedOf (sortEvents (((dictGet? (pass3 pending encs2 []).1
                eid).getD default).events))
            ++ undatedOf (sortEvents (((dictGet? (pass3 pending
                encs2 []).1 eid).getD default).events))) := by
      rw [flatMap_of_map]
      apply flatMap_congr_left
      intro eid _
      rfl
    have hperm1 := flatMap_congr_perm
      (fun eid =>
        datedOf (sortEvents (((dictGet? (pass3 pending encs2 []).1
            eid).getD default).events))
        ++ undatedOf (sortEvents (((dictGet? (pass3 pending
            encs2 []).1 eid).getD default).events)))
      (fun eid => shellEvents (pass3 pending encs2 []).1 eid)
      (order.insertionSort (fun a b =>
        pyStrLe (startKey encs1 a) (startKey encs1 b) = true))
      (fun eid _ => by
        simp only []
        rw [← shellEvents_getD]
        exact (dated_undated_perm _).trans (sortEvents_perm _))
    have hperm2 := perm_flatMap
      (fun eid => shellEvents (pass3 pending encs2 []).1 eid) hps
    rw [shellEvents_over_keys _ hndk3] at hperm2
    have hA := hbuck ▸ (hperm1.trans hperm2)
    have hB : (datedOf (sortEvents (pass3 pending encs2 []).2)
        ++ undatedOf (sortEvents (pass3 pending encs2 []).2)).Perm
        (pass3 pending encs2 []).2 :=
      (dated_undated_perm _).trans (sortEvents_perm _)
    have hcnt3 := pass3_count pending encs2 []
      (pass3 pending encs2 []).1 (pass3 pending encs2 []).2 rfl
    have hcnt2 := pass2_count bundle encs1 none [] encs2 demo pending E
      h2 hE
    have hnil := bigEvents_pass1_nil bundle encs1 order h1
    have hpermE : (bigEvents (pass3 pending encs2 []).1
        ++ (pass3 pending encs2 []).2).Perm E := by
      rw [List.perm_iff_count]
      intro a
      have c3 := hcnt3 a
      have c2 := hcnt2 a
      rw [hnil] at c2
      simp only [List.count_append, List.count_nil] at c3 c2 ⊢
      omega
    rw [List.append_assoc]
    exact ((hA.append hB).trans hpermE)
  · intro eid hmem
    have hc1 : dictContains encs1 eid = true := by
      rw [dictContains_iff, hkeys1]
      exact hmem
    obtain ⟨L, hL, hsh2⟩ :=
      pass2_shell_spec bundle encs1 none [] encs2 demo pending h2 eid hc1
    rw [shellEvents_encs1_nil bundle encs1 order h1 eid,
        List.nil_append] at hsh2
    have hmem3 : eid ∈ ((pass3 pending encs2 []).1).map Prod.fst := by
      rw [hkeys3]
      exact hmem
    have hmemS : eid ∈ (order.insertionSort (fun a b =>
        pyStrLe (startKey encs1 a) (startKey encs1 b) = true)) :=
      hps.mem_iff.mpr hmem3
    obtain ⟨sh3, hg3⟩ := dictGet?_isSome_of_mem _ _ hmem3
    refine ⟨L, summarizeShell
      ((dictGet? (pass3 pending encs2 []).1 eid).getD default),
      hL, ?_, ?_, ?_⟩
    · rw [finalizeTimeline_encounters]
      exact List.mem_map_of_mem _ hmemS
    · have hm := meta_chain bundle encs1 encs2 demo pending demo pending
        h2 eid
      rw [hg3] at hm
      cases hg1 : dictGet? encs1 eid with
      | none =>
        rw [hg1] at hm
        exact absurd hm (by simp)
      | some sh1 =>
        rw [hg1] at hm
        have hm2 : some (shellMeta sh3) = some (shellMeta sh1) := hm
        injection hm2 with hm3
        have hid3 : sh3.id = sh1.id := by
          have h4 := congrArg EncounterShell.id hm3
          simpa [shellMeta] using h4
        have hid1 := pass1_id bundle encs1 order h1 eid sh1 hg1
        rw [hg3]
        show sh3.id = eid
        rw [hid3, hid1]
    · obtain ⟨-, hframe⟩ := pass3_frame pending encs2 []
        (pass3 pending encs2 []).1 (pass3 pending encs2 []).2 rfl
      obtain ⟨sh2, ext, hg2, hshape, hsub⟩ := hframe eid sh3 hg3
      have hsh2ev : sh2.events = L := by
        have hx : shellEvents encs2 eid = sh2.events := by
          unfold shellEvents
          rw [hg2]
          rfl
        rw [← hx, hsh2]
      have hev3 : sh3.events = L ++ ext := by
        rw [hshape, ← hsh2ev]
      have hLsub : L.Subperm sh3.events := by
        rw [hev3]
        exact (List.sublist_append_left L ext).subperm
      have hbp : ((summarizeShell sh3).events
          ++ (summarizeShell sh3).undated_events).Perm sh3.events :=
        (dated_undated_perm _).trans (sortEvents_perm _)
      rw [hg3]
      exact hLsub.trans hbp.symm.subperm
  · obtain ⟨P, hP, hpend⟩ :=
      pass2_pending_spec bundle encs1 none [] encs2 demo pending h2
    rw [hkeys1] at hP
    refine ⟨P, hP, ?_⟩
    have hpendP : pending = P := by simpa using hpend
    have hremsub : ((pass3 pending encs2 []).2).Sublist pending := by
      rw [pass3_remaining]
      simpa using List.filter_sublist pending
    rw [(finalizeTimeline_nonenc pid _ demo _ _).1,
        (finalizeTimeline_nonenc pid _ demo _ _).2]
    exact ((dated_undated_perm _).trans
      (sortEvents_perm _)).subperm.trans (hpendP ▸ hremsub.subperm)

/-- C2 counterexample: on a bundle where the same Encounter id occurs
twice, the event placed in that encounter is emitted in two summary
buckets (one per occurrence of the id), so the bucket contents are not a
one-to-one placement of the produced events — two bucketed events versus
one produced event. -/
theorem bucket_partition_counterexample :
    ((processTimeline dupEncBundle "p").toOption.map (fun t =>
      (t.encounters.flatMap (fun s => s.events ++ s.undated_events)
        ++ t.non_encounter_events
        ++ t.non_encounter_undated_events).length))
      = some 2
    ∧ (eventsFromBundle keepAll dupEncBundle).toOption.map List.length
      = some 1
    ∧ (2 : Nat) ≠ 1 :=
  ⟨rfl, rfl, by decide⟩

/-- A duplicate-free bundle for exercising the partition theorem. -/
def c2Bundle : List Entry :=
  [⟨some encE1⟩, ⟨some obsDirect⟩]

/-- The timeline the builder returns on that bundle. -/
def c2Timeline : Timeline :=
  ((processTimeline c2Bundle "p").toOption).getD default

/-- The finalized event stream of that bundle. -/
def c2Events : List Event :=
  ((eventsFromBundle keepAll c2Bundle).toOption).getD []

theorem bucket_partition_witness :
    (encounterIds c2Bundle).Nodup
    ∧ (c2Timeline.encounters.flatMap
          (fun s => s.events ++ s.undated_events)
        ++ c2Timeline.non_encounter_events
        ++ c2Timeline.non_encounter_undated_events).Perm c2Events :=
  ⟨by decide,
    (bucket_partition c2Bundle "p" c2Timeline c2Events
      (by decide) rfl rfl).1⟩

end MimicFhir
